import Mathlib

/-! cpp-pcp-client: schema validator and data container

A shallow embedding of `lib/src/validator/validator.cc` (the schema registry
`PCPClient::Validator` and the error aggregation `getValidationError`)
together with a model of the path-addressable data container exercised by
`lib/tests/unit/data_container/data_container_test.cc`.

Conventions of the embedding:

* a C++ exception is an `Except.error` carrying the exception class and its
  message;
* a method that mutates `*this` returns the successor state explicitly;
* effects that the claims talk about (taking and releasing `lookup_mutex_`,
  calling into valijson, writing to the debug log) are recorded as a list of
  `Event`s in program order;
* `unsigned int` arithmetic is arithmetic on `Nat` modulo `2 ^ 32`.
-/

namespace PCPClient

/-! ## JSON values -/

/-- A double precision number, carried as its IEEE-754 bit pattern: the code
under study only stores and returns such numbers, it never computes on them. -/
structure JsonDouble where
  bits : Nat
deriving DecidableEq

/-- The JSON value tree (rapidjson's `Value`): the substrate of both the data
container and the documents handed to the validation engine.  Object members
keep the order of the underlying document. -/
inductive JsonValue where
  | null
  | bool (b : Bool)
  | int (i : Int)
  | double (d : JsonDouble)
  | string (s : String)
  | array (elems : List JsonValue)
  | object (members : List (String × JsonValue))

/-! ## Localisation (leatherman::locale) -/

/-- The message catalogue in force: `lth_loc::translate`. -/
structure Locale where
  translate : String → String

/-- Replace every occurrence of the placeholder `{1}` by `arg`. -/
def substArg (arg : List Char) : List Char → List Char
  | '{' :: '1' :: '}' :: rest => arg ++ substArg arg rest
  | c :: rest => c :: substArg arg rest
  | [] => []

/-- The one-argument `lth_loc::format`: translate the format string, then put
the argument in place of `{1}`. -/
def format (loc : Locale) (fmt arg : String) : String :=
  ⟨substArg arg.data (loc.translate fmt).data⟩

/-- The catalogue of a build without translations: every message is its own
translation. -/
def Locale.untranslated : Locale := ⟨fun msg => msg⟩

/-! ## valijson validation results -/

/-- One entry of the error queue (`valijson::ValidationResults::Error`): the
context fragments locating the error and its description. -/
structure Error where
  context : List String
  description : String
deriving DecidableEq

/-- The error queue `valijson::ValidationResults`, front first. -/
abbrev ValidationResults := List Error

/-- The method `ValidationResults::popError`: `none` when the queue is empty (the C++
function returns `false`), otherwise the front error and the rest of the queue. -/
def popError : ValidationResults → Option (Error × ValidationResults)
  | [] => none
  | error :: rest => some (error, rest)

/-- Width of `unsigned int`. -/
def UINT_MODULUS : Nat := 2 ^ 32

/-- The inner `for` loop of `getValidationError`: append every context element,
each preceded by one space. -/
def appendContext (err_msg : String) : List String → String
  | [] => err_msg
  | context_element :: rest => appendContext (err_msg ++ (" " ++ context_element)) rest

/-- The `while (validation_results.popError(error))` loop of
`getValidationError`, as a function of the loop variables `err_msg` and
`err_idx`.  Each recursive call is one iteration; the recursion is on the queue,
which `popError` shortens by one.  Returns the message and the queue as the loop
leaves it. -/
def getValidationErrorLoop (err_label : String) :
    ValidationResults → String → Nat → String × ValidationResults
  | [], err_msg, _ => (err_msg, [])
  | error :: rest, err_msg, err_idx =>
    let err_msg := if !err_msg.isEmpty then err_msg ++ "  - " else err_msg
    let err_idx := (err_idx + 1) % UINT_MODULUS
    let err_msg := err_msg ++ (err_label ++ toString err_idx ++ ":")
    let err_msg := appendContext err_msg error.context
    getValidationErrorLoop err_label rest err_msg err_idx

/-- The function `getValidationError`: drain the queue into one message.  The first
component is the returned string, the second the queue after the call (the
argument is taken by reference). -/
def getValidationError (loc : Locale) (validation_results : ValidationResults) :
    String × ValidationResults :=
  getValidationErrorLoop (loc.translate "ERROR") validation_results "" 0

/-- The variables of the `while` loop of `getValidationError`: the queue and
the loop variables `err_msg` and `err_idx`. -/
structure LoopState where
  validation_results : ValidationResults
  err_msg : String
  err_idx : Nat

/-- One evaluation of the loop condition `validation_results.popError(error)`
followed, when it holds, by the loop body: `none` when `popError` returns
`false` and the loop is left, otherwise the variables after the iteration. -/
def loopStep (err_label : String) (s : LoopState) : Option LoopState :=
  match popError s.validation_results with
  | none => none
  | some (error, rest) =>
    let err_msg := if !s.err_msg.isEmpty then s.err_msg ++ "  - " else s.err_msg
    let err_idx := (s.err_idx + 1) % UINT_MODULUS
    let err_msg := err_msg ++ (err_label ++ toString err_idx ++ ":")
    some ⟨rest, appendContext err_msg error.context, err_idx⟩

/-- The variables after `k` iterations of the loop, each of which popped one
error; `none` when the loop is left before the `k`-th pop. -/
def loopIterate (err_label : String) : Nat → LoopState → Option LoopState
  | 0, s => some s
  | k + 1, s =>
    match loopStep err_label s with
    | none => none
    | some next => loopIterate err_label k next

/-! ## Data container, schema and the validation engine -/

/-- Modelled from the spec: the data container (`lth_jc::JsonContainer`, in the
unit tests `DataContainer`), whose class is not among the sources.  It owns
exactly one JSON value, its root. -/
structure DataContainer where
  root : JsonValue

/-- Modelled from the spec: the accessor `getRaw` of the container, its
underlying JSON value. -/
def DataContainer.getRaw (data : DataContainer) : JsonValue := data.root

/-- Modelled from the spec: the content-type tag of a schema; its declaration
is not among the sources.  The spec names the wire encodings `Json` and
`Msgpack`. -/
inductive ContentType where
  | Json
  | Msgpack
deriving DecidableEq

/-- Modelled from the spec: the class `Schema`, whose declaration is not among
the sources: an immutable unit of a name, a content-type tag and the parsed
schema document, which is opaque to the validator and only handed on to the
engine.  The parsed form is represented by the document it was parsed from. -/
structure Schema where
  name : String
  content_type : ContentType
  document : JsonValue

/-- Modelled from the spec: the read-only accessor `Schema::getName`. -/
def Schema.getName (schema : Schema) : String := schema.name

/-- Modelled from the spec: the read-only accessor `Schema::getContentType`. -/
def Schema.getContentType (schema : Schema) : ContentType := schema.content_type

/-- Modelled from the spec: the read-only accessor `Schema::getRaw`, the parsed
schema handed to valijson. -/
def Schema.getRaw (schema : Schema) : JsonValue := schema.document

/-- The external validation engine, `valijson::Validator::validate` on a parsed
schema and a document: whether the document conforms, and the errors it pushed
onto the (initially empty) result queue. -/
abbrev Engine := JsonValue → JsonValue → Bool × ValidationResults

/-- The effects of the validator that are visible from outside a call. -/
inductive Event where
  /-- The mutex `lookup_mutex_` is acquired. -/
  | lock
  /-- The mutex `lookup_mutex_` is released. -/
  | unlock
  /-- The registry `schema_map_` is read for this name (`find` or `at`). -/
  | lookup (schema_name : String)
  /-- An entry for this name is handed to `schema_map_.insert`. -/
  | insert (schema_name : String)
  /-- The valijson engine runs on this schema and this document. -/
  | engine (schema : Schema) (document : JsonValue)
  /-- The logger `LOG_DEBUG` is called with this (formatted) message. -/
  | logDebug (msg : String)

/-- Whether the event is a run of the external engine. -/
def Event.isEngine : Event → Bool
  | .engine _ _ => true
  | _ => false

/-- The function `validateJsonContainer`: run the engine; on failure aggregate the error
queue and log it at debug level.  Returns the events in program order and the
engine's verdict. -/
def validateJsonContainer (loc : Locale) (engine : Engine) (data : DataContainer)
    (schema : Schema) : List Event × Bool :=
  let (success, validation_results) := engine schema.getRaw data.getRaw
  if !success then
    let err_msg := (getValidationError loc validation_results).1
    ([Event.engine schema data.getRaw,
      Event.logDebug (format loc "Schema validation failure: \x7b1\x7d" err_msg)], success)
  else
    ([Event.engine schema data.getRaw], success)

/-! ## The registry `std::map<std::string, Schema>` -/

/-- A `std::map` with string keys, as the list of its entries.  No operation of
the validator iterates over the map, so the position of an entry is never
observed; lookups take the first entry with the key and `insert` never adds a
second one. -/
structure StdMap (β : Type) where
  entries : List (String × β)

/-- The keys of the map. -/
def StdMap.keys {β : Type} (m : StdMap β) : List String := m.entries.map Prod.fst

/-- Lookup in the entry list. -/
def StdMap.findEntry {β : Type} (key : String) : List (String × β) → Option β
  | [] => none
  | (k, value) :: rest => if k = key then some value else StdMap.findEntry key rest

/-- The method `std::map::find`: `none` stands for `end()`. -/
def StdMap.find {β : Type} (m : StdMap β) (key : String) : Option β :=
  StdMap.findEntry key m.entries

/-- The method `std::map::at`: `none` stands for the `std::out_of_range` it throws. -/
def StdMap.at {β : Type} (m : StdMap β) (key : String) : Option β :=
  StdMap.findEntry key m.entries

/-- The method `std::map::insert`: adds the pair unless the key is already present. -/
def StdMap.insert {β : Type} (m : StdMap β) (p : String × β) : StdMap β :=
  if (m.find p.1).isSome then m else ⟨m.entries ++ [p]⟩

/-! ## `PCPClient::Validator` -/

/-- The state of a `Validator`: the registry.  (`lookup_mutex_` is free between
calls; its use inside a call is recorded in the call's events.) -/
structure Validator where
  schema_map_ : StdMap Schema

/-- The exceptions a `Validator` method can leave by. -/
inductive ValidatorError where
  | schema_redefinition_error (msg : String)
  | schema_not_found_error (msg : String)
  | validation_error (msg : String)
  /-- The exception `std::out_of_range` from `schema_map_.at`. -/
  | out_of_range
deriving DecidableEq

/-- What a call of a `Validator` method does: its events in program order, its
result (a return value or the exception thrown) and the validator afterwards. -/
structure Outcome (α : Type) where
  trace : List Event
  result : Except ValidatorError α
  after : Validator

/-- The constructor `Validator::Validator()`: the empty registry. -/
def Validator.new : Validator := ⟨⟨[]⟩⟩

/-- The method `Validator::includesSchema`: a bare lookup, no locking of its own. -/
def Validator.includesSchema (v : Validator) (schema_name : String) : Bool :=
  (v.schema_map_.find schema_name).isSome

/-- The events of a call of `includesSchema`: one read of the registry. -/
def Validator.includesSchemaEvents (schema_name : String) : List Event :=
  [Event.lookup schema_name]

/-- A call of `includesSchema` from outside: events, result and the (unchanged)
validator. -/
def Validator.includesSchemaCall (v : Validator) (schema_name : String) : Outcome Bool :=
  { trace := Validator.includesSchemaEvents schema_name
    result := .ok (v.includesSchema schema_name)
    after := v }

/-- The method `Validator::registerSchema`.  The `lock_guard` holds `lookup_mutex_` for the
whole body and releases it when the scope is left, by return or by throw. -/
def Validator.registerSchema (loc : Locale) (v : Validator) (schema : Schema) :
    Outcome Unit :=
  let schema_name := schema.getName
  if v.includesSchema schema_name then
    { trace := [Event.lock] ++ Validator.includesSchemaEvents schema_name ++ [Event.unlock]
      result := .error (.schema_redefinition_error
        (format loc "schema \x27\x7b1\x7d\x27 already defined" schema_name))
      after := v }
  else
    let p : String × Schema := (schema_name, schema)
    { trace := [Event.lock] ++ Validator.includesSchemaEvents schema_name
        ++ [Event.insert schema_name, Event.unlock]
      result := .ok ()
      after := ⟨v.schema_map_.insert p⟩ }

/-- The method `Validator::validate`.  The `unique_lock` is released by its destructor on
the not-found path and by `lock.unlock()` otherwise; after that the schema is
read with `schema_map_.at` (the events up to there are `checked`) and the
engine runs. -/
def Validator.validate (loc : Locale) (engine : Engine) (v : Validator)
    (data : DataContainer) (schema_name : String) : Outcome Unit :=
  if !v.includesSchema schema_name then
    { trace := [Event.lock] ++ Validator.includesSchemaEvents schema_name ++ [Event.unlock]
      result := .error (.schema_not_found_error
        (format loc "\x27\x7b1\x7d\x27 is not a registered schema" schema_name))
      after := v }
  else
    let checked := [Event.lock] ++ Validator.includesSchemaEvents schema_name
      ++ [Event.unlock, Event.lookup schema_name]
    match v.schema_map_.at schema_name with
    | none => { trace := checked, result := .error .out_of_range, after := v }
    | some schema =>
      let run := validateJsonContainer loc engine data schema
      if !run.2 then
        { trace := checked ++ run.1
          result := .error (.validation_error
            (format loc "does not match schema: \x27\x7b1\x7d\x27" schema_name))
          after := v }
      else
        { trace := checked ++ run.1, result := .ok (), after := v }

/-- The method `Validator::getSchemaContentType`. -/
def Validator.getSchemaContentType (loc : Locale) (v : Validator) (schema_name : String) :
    Outcome ContentType :=
  if !v.includesSchema schema_name then
    { trace := [Event.lock] ++ Validator.includesSchemaEvents schema_name ++ [Event.unlock]
      result := .error (.schema_not_found_error
        (format loc "\x27\x7b1\x7d\x27 is not a registered schema" schema_name))
      after := v }
  else
    let checked := [Event.lock] ++ Validator.includesSchemaEvents schema_name
      ++ [Event.unlock, Event.lookup schema_name]
    match v.schema_map_.at schema_name with
    | none => { trace := checked, result := .error .out_of_range, after := v }
    | some schema => { trace := checked, result := .ok schema.getContentType, after := v }

/-- A call of one of the four public methods of `Validator`. -/
inductive Call where
  | registerSchema (schema : Schema)
  | validate (data : DataContainer) (schema_name : String)
  | includesSchema (schema_name : String)
  | getSchemaContentType (schema_name : String)

/-- The validator after a call, whether the call returned or threw. -/
def Validator.perform (loc : Locale) (engine : Engine) (v : Validator) : Call → Validator
  | .registerSchema schema => (v.registerSchema loc schema).after
  | .validate data schema_name => (v.validate loc engine data schema_name).after
  | .includesSchema schema_name => (v.includesSchemaCall schema_name).after
  | .getSchemaContentType schema_name => (v.getSchemaContentType loc schema_name).after

/-- The constructor `Validator::Validator(Validator&&)`.  Inside the
constructor the named parameter `other_validator` is an lvalue, so the member
initialiser `schema_map_ { other_validator.schema_map_ }` copies the map; the
mutex is a new one.  The first component is the validator constructed, the
second the source afterwards. -/
def Validator.moveConstruct (other_validator : Validator) : Validator × Validator :=
  (⟨other_validator.schema_map_⟩, other_validator)

/-- A sequence of `registerSchema` calls, each applied to the validator that
the call before it left, whether that call returned or threw. -/
def Validator.registerAll (loc : Locale) (v : Validator) : List Schema → Validator
  | [] => v
  | schema :: rest => Validator.registerAll loc (v.registerSchema loc schema).after rest

/-- Whether the event acquires `lookup_mutex_`. -/
def Event.isLock : Event → Bool
  | .lock => true
  | _ => false

/-- Whether the event releases `lookup_mutex_`. -/
def Event.isUnlock : Event → Bool
  | .unlock => true
  | _ => false

/-- Whether `lookup_mutex_` is held after the events, `held` telling whether it
was held before them. -/
def lockHeld (held : Bool) : List Event → Bool
  | [] => held
  | Event.lock :: rest => lockHeld true rest
  | Event.unlock :: rest => lockHeld false rest
  | _ :: rest => lockHeld held rest

/-! ## The data container

The container class itself is not among the sources (only its unit tests are);
the definitions of this section follow the specification, sections 3 and 4.1. -/

/-- Modelled from the spec: a path, "an ordered sequence of string keys
identifying a location in a JSON tree"; each key addresses one level of object
nesting. -/
abbrev Path := List String

/-- Modelled from the spec: the member of an object named `key` (the first one,
should the document repeat a key); `none` when the key is absent. -/
def findMember (key : String) : List (String × JsonValue) → Option JsonValue
  | [] => none
  | (k, value) :: rest => if k = key then some value else findMember key rest

/-- Modelled from the spec: write `value` under `key`, in place when the key
exists and as a new last member otherwise. -/
def setMember (key : String) (value : JsonValue) :
    List (String × JsonValue) → List (String × JsonValue)
  | [] => [(key, value)]
  | (k, old) :: rest =>
    if k = key then (k, value) :: rest else (k, old) :: setMember key value rest

/-- Modelled from the spec: the members of a node seen as an object; a node
that is not an object is "overwritten with an object", i.e. counts as the empty
object, when `set` walks through it. -/
def JsonValue.membersOrEmpty : JsonValue → List (String × JsonValue)
  | .object members => members
  | _ => []

/-- Modelled from the spec: the scalar types a value can be requested as. -/
inductive ScalarType where
  | bool
  | int
  | double
  | string
deriving DecidableEq

/-- Modelled from the spec: the types `T` of `get<T>` and `set<T>`: a scalar, a
sequence of scalars, or a nested container. -/
inductive ValueType where
  | scalar (s : ScalarType)
  | sequence (s : ScalarType)
  | container
deriving DecidableEq

/-- Modelled from the spec: the values of a scalar type (`bool`, `int`,
`double`, `std::string`); an `int` is an integer, a `double` its bit pattern. -/
@[reducible] def ScalarType.denote : ScalarType → Type
  | .bool => Bool
  | .int => Int
  | .double => JsonDouble
  | .string => String

/-- Modelled from the spec: the values of a type `T`. -/
@[reducible] def ValueType.denote : ValueType → Type
  | .scalar s => s.denote
  | .sequence s => List s.denote
  | .container => DataContainer

/-- Modelled from the spec: the "type-appropriate null/default value" of a
scalar type: `false`, `0`, `0.0` (all bits zero) and `""`. -/
def ScalarType.nullValue : (s : ScalarType) → s.denote
  | .bool => false
  | .int => (0 : Int)
  | .double => (⟨0⟩ : JsonDouble)
  | .string => ""

/-- Modelled from the spec: the empty container, whose root is the empty
object. -/
def DataContainer.empty : DataContainer := ⟨.object []⟩

/-- Modelled from the spec: the default of a type `T`: the scalar default, the
empty sequence, the empty container. -/
def ValueType.nullValue : (t : ValueType) → t.denote
  | .scalar s => s.nullValue
  | .sequence _ => ([] : List _)
  | .container => DataContainer.empty

/-- Modelled from the spec: the JSON node that stores a scalar. -/
def ScalarType.toJson : (s : ScalarType) → s.denote → JsonValue
  | .bool, b => .bool b
  | .int, i => .int i
  | .double, d => .double d
  | .string, str => .string str

/-- Modelled from the spec: the JSON node that `set<T>` stores: the scalar
node, an array of scalar nodes, or a structural copy of the container's root. -/
def ValueType.toJson : (t : ValueType) → t.denote → JsonValue
  | .scalar s, x => s.toJson x
  | .sequence s, xs => .array (List.map s.toJson xs)
  | .container, c => DataContainer.root c

/-- Modelled from the spec: read a node as a scalar; `none` when "the value
cannot be converted to `T`", which is taken to mean that the node does not
carry the discriminant of `T` (JSON null included). -/
def ScalarType.fromJson? : (s : ScalarType) → JsonValue → Option s.denote
  | .bool, .bool b => some b
  | .int, .int i => some i
  | .double, .double d => some d
  | .string, .string str => some str
  | _, _ => none

/-- Modelled from the spec: read the elements of an array as scalars of one
type; `none` as soon as one of them cannot be converted. -/
def ScalarType.fromJsonList? (s : ScalarType) : List JsonValue → Option (List s.denote)
  | [] => some []
  | x :: xs =>
    match s.fromJson? x, ScalarType.fromJsonList? s xs with
    | some a, some rest => some (a :: rest)
    | _, _ => none

/-- Modelled from the spec: read a node as a `T`; `none` when it cannot be
converted.  Every node but JSON null can be wrapped as a container ("the root
is always a valid JSON Value, possibly representing a non-object"). -/
def ValueType.fromJson? : (t : ValueType) → JsonValue → Option t.denote
  | .scalar s, value => s.fromJson? value
  | .sequence s, .array elems => s.fromJsonList? elems
  | .sequence _, _ => none
  | .container, .null => none
  | .container, value => some (⟨value⟩ : DataContainer)

/-- Modelled from the spec: the typed value of a node that was found: the
converted value, or the default of `T` when it cannot be converted. -/
def ValueType.getValue (t : ValueType) (value : JsonValue) : t.denote :=
  (t.fromJson? value).getD t.nullValue

/-- Modelled from the spec: `get<T>` from a node: navigate along the path; "if
any intermediate key is absent, the terminal value is absent, or the value
cannot be converted to `T`", the result is the default of `T`. -/
def JsonValue.getAt (t : ValueType) : JsonValue → Path → t.denote
  | value, [] => t.getValue value
  | .object members, key :: rest =>
    match findMember key members with
    | none => t.nullValue
    | some child => JsonValue.getAt t child rest
  | _, _ :: _ => t.nullValue

/-- Modelled from the spec: `includes` from a node: "true iff every key in
`path` resolves to an existing node, checked by walking from the root and
failing fast", false "if any traversed node is not an object". -/
def JsonValue.includesAt : JsonValue → Path → Bool
  | _, [] => true
  | .object members, key :: rest =>
    match findMember key members with
    | none => false
    | some child => JsonValue.includesAt child rest
  | _, _ :: _ => false

/-- Modelled from the spec: `set` on a node: write `value` at the path,
"creating intermediate object nodes as needed; if an intermediate node exists
but is not an object, it is overwritten with an object". -/
def JsonValue.setAt : JsonValue → Path → JsonValue → JsonValue
  | _, [], value => value
  | node, key :: rest, value =>
    let members := node.membersOrEmpty
    let child := (findMember key members).getD (.object [])
    .object (setMember key (JsonValue.setAt child rest value) members)

/-- Modelled from the spec: `get<T>(path)`.  "Retrieving the whole container as
itself (`get<Container>()` with empty path) always succeeds." -/
def DataContainer.get (t : ValueType) (c : DataContainer) (path : Path) : t.denote :=
  match t, path with
  | .container, [] => c
  | t, path => c.root.getAt t path

/-- Modelled from the spec: `set<T>(path, value)`; the container afterwards. -/
def DataContainer.set (t : ValueType) (c : DataContainer) (path : Path) (value : t.denote) :
    DataContainer :=
  ⟨c.root.setAt path (t.toJson value)⟩

/-- Modelled from the spec: `includes(path)`. -/
def DataContainer.includes (c : DataContainer) (path : Path) : Bool :=
  c.root.includesAt path

/-- Modelled from the spec: the discriminant returned by `type(path)`:
"Object, Array, String, Int, Double, Bool, Null". -/
inductive DataType where
  | Object
  | Array
  | String
  | Int
  | Double
  | Bool
  | Null
deriving DecidableEq

/-- Modelled from the spec: the failure of the data container, the "missing
key" error raised by `type(path)`. -/
inductive DataContainerError where
  | data_key_error
deriving DecidableEq

/-- Modelled from the spec: the discriminant of a JSON node. -/
def JsonValue.getValueType : JsonValue → DataType
  | .null => DataType.Null
  | .bool _ => DataType.Bool
  | .int _ => DataType.Int
  | .double _ => DataType.Double
  | .string _ => DataType.String
  | .array _ => DataType.Array
  | .object _ => DataType.Object

/-- Modelled from the spec: `type` from a node: the "discriminant for the value
at `path`; fails with a missing-key error if any segment of the path does not
exist".  This is the one strict read. -/
def JsonValue.typeAt : JsonValue → Path → Except DataContainerError DataType
  | value, [] => .ok value.getValueType
  | .object members, key :: rest =>
    match findMember key members with
    | none => .error DataContainerError.data_key_error
    | some child => JsonValue.typeAt child rest
  | _, _ :: _ => .error DataContainerError.data_key_error

/-- Modelled from the spec: `type(path)`. -/
def DataContainer.type (c : DataContainer) (path : Path) :
    Except DataContainerError DataType :=
  c.root.typeAt path

/-- The discriminant that matches a scalar type. -/
def ScalarType.dataType : ScalarType → DataType
  | .bool => DataType.Bool
  | .int => DataType.Int
  | .double => DataType.Double
  | .string => DataType.String

/-- The discriminant that matches a type `T`: that of the scalar, `Array` for a
sequence, `Object` for a container. -/
def ValueType.dataType : ValueType → DataType
  | .scalar s => s.dataType
  | .sequence _ => DataType.Array
  | .container => DataType.Object

/-- Modelled from the spec: `keys()`: "top-level keys only, in the underlying
document's native order; empty sequence if root is empty or not an object". -/
def DataContainer.keys (c : DataContainer) : List String :=
  match c.root with
  | .object members => members.map Prod.fst
  | _ => []

/-- The node that `path` leads to from `node`, if every key of the path names a
member of an object node; `none` when the walk fails. -/
def JsonValue.resolve : JsonValue → Path → Option JsonValue
  | value, [] => some value
  | .object members, key :: rest =>
    match findMember key members with
    | none => none
    | some child => JsonValue.resolve child rest
  | _, _ :: _ => none

/-- Walking `path` from `node` fails: some key of the path is absent, or a node
that has to be traversed (the root or an intermediate node) is not an object. -/
inductive Unresolved : JsonValue → Path → Prop where
  /-- A key is to be looked up in a node that is not an object. -/
  | notObject (node : JsonValue) (key : String) (rest : Path) :
      (∀ members, node ≠ JsonValue.object members) → Unresolved node (key :: rest)
  /-- The object has no member named by the key. -/
  | absent (members : List (String × JsonValue)) (key : String) (rest : Path) :
      findMember key members = none → Unresolved (JsonValue.object members) (key :: rest)
  /-- The key names a member, and the rest of the path fails from there. -/
  | inMember (members : List (String × JsonValue)) (key : String) (child : JsonValue)
      (rest : Path) :
      findMember key members = some child → Unresolved child rest →
      Unresolved (JsonValue.object members) (key :: rest)

/-- Every key of `path`, taken in order from `node`, names a member of an object
node, and the node reached at the end is `value`. -/
inductive ResolvesTo : JsonValue → Path → JsonValue → Prop where
  /-- The empty path stays at the node. -/
  | here (node : JsonValue) : ResolvesTo node [] node
  /-- The key names a member, and the rest of the path leads on from there. -/
  | inMember (members : List (String × JsonValue)) (key : String) (child : JsonValue)
      (rest : Path) (value : JsonValue) :
      findMember key members = some child → ResolvesTo child rest value →
      ResolvesTo (JsonValue.object members) (key :: rest) value

/-! ## The aggregated error description, as the specification words it -/

/-- The context fragments of one error in order, each preceded by one space. -/
def contextText : List String → String
  | [] => ""
  | fragment :: rest => " " ++ fragment ++ contextText rest

/-- The item of the error numbered `i`: the label, the decimal numeral of `i`,
a colon, then the context fragments. -/
def errorItem (label : String) (i : Nat) (e : Error) : String :=
  label ++ toString i ++ ":" ++ contextText e.context

/-- The items of a queue in pop order, numbered consecutively from `first`. -/
def numberedItems (label : String) (first : Nat) : ValidationResults → List String
  | [] => []
  | e :: rest => errorItem label first e :: numberedItems label (first + 1) rest

/-- The description the specification asks for: the items of the errors,
numbered from 1 in pop order and joined by `"  - "`; the empty string for the
empty queue. -/
def aggregatedDescription (label : String) (q : ValidationResults) : String :=
  String.intercalate "  - " (numberedItems label 1 q)

/-- The items of a queue in pop order as the `unsigned int` counter numbers
them: the error popped as the `i`-th carries the number `i` modulo `2 ^ 32`. -/
def numberedItemsMod (label : String) (first : Nat) : ValidationResults → List String
  | [] => []
  | e :: rest =>
    errorItem label (first % UINT_MODULUS) e :: numberedItemsMod label (first + 1) rest

/-! ## Concrete inputs used to instantiate the theorems -/

/-- A schema named `S` for JSON content. -/
def schemaS : Schema := ⟨"S", ContentType.Json, JsonValue.object []⟩

/-- Another schema with the same name `S`, but a different content type and
document. -/
def schemaS2 : Schema := ⟨"S", ContentType.Msgpack, JsonValue.null⟩

/-- The validator after `registerSchema(schemaS)` on a fresh one. -/
def validatorS : Validator :=
  (Validator.registerSchema Locale.untranslated Validator.new schemaS).after

/-- An engine that accepts every document against an object schema document
and rejects, with one error, everything else. -/
def sampleEngine : Engine := fun schema _ =>
  match schema with
  | JsonValue.object _ => (true, [])
  | _ => (false, [⟨["<root>"], "Value type not permitted by type constraint."⟩])

/-- An engine that rejects every document with one error. -/
def rejectingEngine : Engine := fun _ _ =>
  (false, [⟨["<root>"], "Value type not permitted by type constraint."⟩])

/-- The document of the unit tests (without its `real` and `vec` members). -/
def sampleDocument : DataContainer :=
  ⟨JsonValue.object
    [("foo", JsonValue.object [("bar", JsonValue.int 2)]),
     ("goo", JsonValue.int 1),
     ("bool", JsonValue.bool true),
     ("string", JsonValue.string "a string"),
     ("null", JsonValue.null),
     ("nested", JsonValue.object [("foo", JsonValue.string "bar")])]⟩

/-- A queue of three errors. -/
def sampleQueue : ValidationResults :=
  [⟨["<root>", "[foo]"], "Failed to validate against child schema."⟩,
   ⟨[], "Missing required property."⟩,
   ⟨["<root>"], "Value type not permitted by type constraint."⟩]

/-- An error without context fragments. -/
def bareError : Error := ⟨[], ""⟩

/-- A queue of `2 ^ 32` errors. -/
def longQueue : ValidationResults := List.replicate 4294967296 bareError

/-- The container of the unit tests whose root is the bare string `"foo"`. -/
def stringContainer : DataContainer := ⟨JsonValue.string "foo"⟩

/-- The container built from `{"a" : 1, "b" : 2}`. -/
def abDocument : DataContainer :=
  ⟨JsonValue.object [("a", JsonValue.int 1), ("b", JsonValue.int 2)]⟩

/-- The container of the unit test on nested structures after its first call,
`set<int>({"level1", "level21"}, 0)` on the empty container. -/
def nestedContainer : DataContainer :=
  DataContainer.set (ValueType.scalar ScalarType.int) DataContainer.empty
    ["level1", "level21"] (0 : Int)

/-! ## The registry: lookups and insertion -/

theorem findEntry_isSome_iff_mem {β : Type} (key : String) (es : List (String × β)) :
    (StdMap.findEntry key es).isSome = true ↔ key ∈ es.map Prod.fst := by
  induction es with
  | nil => simp [StdMap.findEntry]
  | cons e rest ih =>
    obtain ⟨k, value⟩ := e
    by_cases hk : k = key
    · simp [StdMap.findEntry, hk]
    · have hk2 : ¬ key = k := fun h => hk h.symm
      simp [StdMap.findEntry, hk, hk2, ih]

theorem findEntry_eq_none_iff {β : Type} (key : String) (es : List (String × β)) :
    StdMap.findEntry key es = none ↔ key ∉ es.map Prod.fst := by
  rw [← findEntry_isSome_iff_mem]
  cases StdMap.findEntry key es <;> simp

theorem findEntry_append_of_some {β : Type} (key : String) (es fs : List (String × β))
    (value : β) (h : StdMap.findEntry key es = some value) :
    StdMap.findEntry key (es ++ fs) = some value := by
  induction es with
  | nil => simp [StdMap.findEntry] at h
  | cons e rest ih =>
    obtain ⟨k, w⟩ := e
    by_cases hk : k = key
    · simpa [StdMap.findEntry, hk] using h
    · simp only [StdMap.findEntry, hk, if_false, List.cons_append] at h ⊢
      exact ih h

theorem findEntry_append_of_none {β : Type} (key : String) (es fs : List (String × β))
    (h : StdMap.findEntry key es = none) :
    StdMap.findEntry key (es ++ fs) = StdMap.findEntry key fs := by
  induction es with
  | nil => rfl
  | cons e rest ih =>
    obtain ⟨k, w⟩ := e
    by_cases hk : k = key
    · simp [StdMap.findEntry, hk] at h
    · simp only [StdMap.findEntry, hk, if_false, List.cons_append] at h ⊢
      exact ih h

theorem find_insert_of_find_eq_some {β : Type} (m : StdMap β) (p : String × β)
    (key : String) (value : β) (h : m.find key = some value) :
    (m.insert p).find key = some value := by
  unfold StdMap.insert
  split
  · exact h
  · exact findEntry_append_of_some key m.entries [p] value h

theorem find_insert_of_find_eq_none {β : Type} (m : StdMap β) (p : String × β)
    (h : m.find p.1 = none) : (m.insert p).find p.1 = some p.2 := by
  unfold StdMap.insert
  simp only [h, Option.isSome_none, Bool.false_eq_true, if_false]
  show StdMap.findEntry p.1 (m.entries ++ [p]) = some p.2
  rw [findEntry_append_of_none p.1 m.entries [p] h]
  simp [StdMap.findEntry]

theorem insert_entries_extend {β : Type} (m : StdMap β) (p : String × β) :
    ∃ added, (m.insert p).entries = m.entries ++ added := by
  unfold StdMap.insert
  split
  · exact ⟨[], by simp⟩
  · exact ⟨[p], rfl⟩

theorem includesSchema_iff_mem_keys (v : Validator) (schema_name : String) :
    v.includesSchema schema_name = true ↔ schema_name ∈ v.schema_map_.keys :=
  findEntry_isSome_iff_mem schema_name v.schema_map_.entries

theorem includesSchema_of_find {v : Validator} {schema_name : String} {schema : Schema}
    (h : v.schema_map_.find schema_name = some schema) :
    v.includesSchema schema_name = true := by
  simp [Validator.includesSchema, h]

/-! ## Registration -/

theorem includesSchema_eq_false_of_not_mem {v : Validator} {schema_name : String}
    (hnot : schema_name ∉ v.schema_map_.keys) : v.includesSchema schema_name = false := by
  cases h : v.includesSchema schema_name
  · rfl
  · exact absurd ((includesSchema_iff_mem_keys v schema_name).mp h) hnot

theorem registerSchema_of_not_mem (loc : Locale) (v : Validator) (schema : Schema)
    (hkey : schema.getName ∉ v.schema_map_.keys) :
    (v.registerSchema loc schema).result = Except.ok () ∧
    (v.registerSchema loc schema).after.includesSchema schema.getName = true ∧
    (v.registerSchema loc schema).after.schema_map_.find schema.getName = some schema := by
  have hin := includesSchema_eq_false_of_not_mem hkey
  have hnone : v.schema_map_.find schema.getName = none :=
    (findEntry_eq_none_iff schema.getName v.schema_map_.entries).mpr hkey
  have hfind := find_insert_of_find_eq_none v.schema_map_ (schema.getName, schema) hnone
  simp only [Validator.registerSchema, hin, Bool.false_eq_true, if_false, true_and]
  exact ⟨includesSchema_of_find hfind, hfind⟩

/-- C1: `registerSchema(s)` throws `schema_redefinition_error` exactly when the
name of `s` is already a key of the registry; when it is not, the call returns
normally, and afterwards `includesSchema` holds for the name and the entry
stored under the name is `s`. -/
theorem registerSchema_throws_iff_registered (loc : Locale) (v : Validator) (schema : Schema) :
    ((∃ msg, (v.registerSchema loc schema).result
        = Except.error (ValidatorError.schema_redefinition_error msg))
      ↔ schema.getName ∈ v.schema_map_.keys) ∧
    (schema.getName ∉ v.schema_map_.keys →
      (v.registerSchema loc schema).result = Except.ok () ∧
      (v.registerSchema loc schema).after.includesSchema schema.getName = true ∧
      (v.registerSchema loc schema).after.schema_map_.find schema.getName = some schema) := by
  refine ⟨?_, registerSchema_of_not_mem loc v schema⟩
  by_cases hkey : schema.getName ∈ v.schema_map_.keys
  · have hin := (includesSchema_iff_mem_keys v schema.getName).mpr hkey
    simp [Validator.registerSchema, hin, hkey]
  · have hin := includesSchema_eq_false_of_not_mem hkey
    simp [Validator.registerSchema, hin, hkey]

/-- C1, at a concrete input: registering `schemaS` on a fresh validator. -/
theorem registerSchema_throws_iff_registered_witness :
    schemaS.getName ∉ Validator.new.schema_map_.keys ∧
    ((Validator.new.registerSchema Locale.untranslated schemaS).result = Except.ok () ∧
      (Validator.new.registerSchema Locale.untranslated schemaS).after.includesSchema
        schemaS.getName = true ∧
      (Validator.new.registerSchema Locale.untranslated schemaS).after.schema_map_.find
        schemaS.getName = some schemaS) :=
  ⟨by decide,
   (registerSchema_throws_iff_registered Locale.untranslated Validator.new schemaS).2
     (by decide)⟩

/-- C2: when `registerSchema(s2)` is called while `s1` is registered under the
name of `s2`, the call throws `schema_redefinition_error` and the validator
afterwards is the validator before: the name still maps to `s1`, `validate`
has the same outcome as before and runs the engine on `s1`, and
`getSchemaContentType` returns the content type of `s1`. -/
theorem registerSchema_failure_keeps_registry (loc : Locale) (engine : Engine) (v : Validator)
    (s1 s2 : Schema) (hreg : v.schema_map_.find s2.getName = some s1) :
    (∃ msg, (v.registerSchema loc s2).result
        = Except.error (ValidatorError.schema_redefinition_error msg)) ∧
    (v.registerSchema loc s2).after = v ∧
    (v.registerSchema loc s2).after.schema_map_.find s2.getName = some s1 ∧
    (∀ data : DataContainer,
      ((v.registerSchema loc s2).after.validate loc engine data s2.getName).result
        = (v.validate loc engine data s2.getName).result ∧
      ((v.registerSchema loc s2).after.validate loc engine data s2.getName).trace.filter
        Event.isEngine = [Event.engine s1 data.getRaw]) ∧
    ((v.registerSchema loc s2).after.getSchemaContentType loc s2.getName).result
      = Except.ok s1.getContentType := by
  have hin : v.includesSchema s2.getName = true := includesSchema_of_find hreg
  have hafter : (v.registerSchema loc s2).after = v := by
    simp [Validator.registerSchema, hin]
  have hat : v.schema_map_.at s2.getName = some s1 := hreg
  refine ⟨by simp [Validator.registerSchema, hin], hafter, by rw [hafter]; exact hreg,
    fun data => ⟨by rw [hafter], ?_⟩, ?_⟩
  · rw [hafter]
    simp only [Validator.validate, hin, hat, validateJsonContainer]
    cases hrun : (engine s1.getRaw data.getRaw).1 <;>
      simp [hrun, List.filter, Event.isEngine]
  · rw [hafter]
    simp [Validator.getSchemaContentType, hin, hat]

/-- C2, at a concrete input: `schemaS2` is refused while `schemaS` is
registered. -/
theorem registerSchema_failure_keeps_registry_witness :
    validatorS.schema_map_.find schemaS2.getName = some schemaS ∧
    (validatorS.registerSchema Locale.untranslated schemaS2).after = validatorS ∧
    ((validatorS.registerSchema Locale.untranslated schemaS2).after.getSchemaContentType
      Locale.untranslated schemaS2.getName).result = Except.ok ContentType.Json :=
  have h := registerSchema_failure_keeps_registry Locale.untranslated sampleEngine validatorS
    schemaS schemaS2 rfl
  ⟨rfl, h.2.1, h.2.2.2.2⟩

/-- C3: write-once registry.  Whatever public method is called, and whether
it returns or throws, every name registered before the call is registered
after it with the same schema; the entries present before are all kept, in
place, and entries are only ever added behind them. -/
theorem perform_keeps_entries (loc : Locale) (engine : Engine) (v : Validator) (call : Call) :
    (∀ name schema, v.schema_map_.find name = some schema →
      (v.perform loc engine call).includesSchema name = true ∧
      (v.perform loc engine call).schema_map_.find name = some schema) ∧
    (∃ added, (v.perform loc engine call).schema_map_.entries
      = v.schema_map_.entries ++ added) := by
  have hsame : ∀ w : Validator, w = v →
      (∀ name schema, v.schema_map_.find name = some schema →
        w.includesSchema name = true ∧ w.schema_map_.find name = some schema) ∧
      (∃ added, w.schema_map_.entries = v.schema_map_.entries ++ added) := by
    intro w hw
    subst hw
    exact ⟨fun name schema h => ⟨includesSchema_of_find h, h⟩, ⟨[], by simp⟩⟩
  cases call with
  | registerSchema schema =>
    by_cases hin : v.includesSchema schema.getName = true
    · exact hsame _ (by simp [Validator.perform, Validator.registerSchema, hin])
    · simp only [Validator.perform, Validator.registerSchema, hin, Bool.false_eq_true, if_false]
      refine ⟨fun name s h => ?_, insert_entries_extend _ _⟩
      have h2 := find_insert_of_find_eq_some v.schema_map_ (schema.getName, schema) name s h
      exact ⟨includesSchema_of_find h2, h2⟩
  | validate data schema_name =>
    apply hsame
    simp only [Validator.perform, Validator.validate]
    split
    · rfl
    · split
      · rfl
      · split <;> rfl
  | includesSchema schema_name => exact hsame _ rfl
  | getSchemaContentType schema_name =>
    apply hsame
    simp only [Validator.perform, Validator.getSchemaContentType]
    split
    · rfl
    · split <;> rfl

/-- C3, at a concrete input: `schemaS` survives an attempt to register
`schemaS2` under its name. -/
theorem perform_keeps_entries_witness :
    validatorS.schema_map_.find "S" = some schemaS ∧
    (validatorS.perform Locale.untranslated sampleEngine
      (Call.registerSchema schemaS2)).schema_map_.find "S" = some schemaS :=
  ⟨rfl, ((perform_keeps_entries Locale.untranslated sampleEngine validatorS
    (Call.registerSchema schemaS2)).1 "S" schemaS rfl).2⟩

/-! ## Validation and content-type lookup -/

/-- C4: for a name that is not registered, `validate` throws
`schema_not_found_error`, whatever the document; the call takes the lock,
reads the registry and releases the lock, and no event of the call is a run of
the external engine. -/
theorem validate_unregistered (loc : Locale) (engine : Engine) (v : Validator)
    (data : DataContainer) (schema_name : String)
    (hnot : schema_name ∉ v.schema_map_.keys) :
    (∃ msg, (v.validate loc engine data schema_name).result
        = Except.error (ValidatorError.schema_not_found_error msg)) ∧
    (v.validate loc engine data schema_name).trace
      = [Event.lock, Event.lookup schema_name, Event.unlock] ∧
    (∀ e ∈ (v.validate loc engine data schema_name).trace, e.isEngine = false) := by
  have hin := includesSchema_eq_false_of_not_mem hnot
  refine ⟨?_, ?_, ?_⟩
  · simp [Validator.validate, hin]
  · simp [Validator.validate, Validator.includesSchemaEvents, hin]
  · intro e he
    simp only [Validator.validate, Validator.includesSchemaEvents, hin, Bool.not_false,
      if_true, List.cons_append, List.nil_append, List.mem_cons, List.mem_singleton,
      List.not_mem_nil, or_false] at he
    rcases he with rfl | rfl | rfl <;> rfl

/-- C4, at a concrete input: `T` is not registered in `validatorS`. -/
theorem validate_unregistered_witness :
    "T" ∉ validatorS.schema_map_.keys ∧
    (∃ msg, (validatorS.validate Locale.untranslated sampleEngine sampleDocument "T").result
        = Except.error (ValidatorError.schema_not_found_error msg)) :=
  ⟨by decide,
   (validate_unregistered Locale.untranslated sampleEngine validatorS sampleDocument "T"
     (by decide)).1⟩

/-- C5: for a registered name, `validate` runs the engine once, on the schema
stored under the name and on the document; it returns normally exactly when
the engine reports success, throws `validation_error` exactly when the engine
reports failure, and never throws `schema_not_found_error`. -/
theorem validate_registered (loc : Locale) (engine : Engine) (v : Validator)
    (data : DataContainer) (schema_name : String) (schema : Schema)
    (hreg : v.schema_map_.find schema_name = some schema) :
    ((v.validate loc engine data schema_name).result = Except.ok ()
      ↔ (engine schema.getRaw data.getRaw).1 = true) ∧
    ((∃ msg, (v.validate loc engine data schema_name).result
        = Except.error (ValidatorError.validation_error msg))
      ↔ (engine schema.getRaw data.getRaw).1 = false) ∧
    (∀ msg, (v.validate loc engine data schema_name).result
        ≠ Except.error (ValidatorError.schema_not_found_error msg)) ∧
    (v.validate loc engine data schema_name).trace.filter Event.isEngine
      = [Event.engine schema data.getRaw] := by
  have hin : v.includesSchema schema_name = true := includesSchema_of_find hreg
  have hat : v.schema_map_.at schema_name = some schema := hreg
  simp only [Validator.validate, hin, hat, validateJsonContainer]
  cases hrun : (engine schema.getRaw data.getRaw).1 <;>
    simp [hrun, List.filter, Event.isEngine]

/-- C5, at a concrete input: `sampleEngine` accepts the sample document against
`schemaS`, and `validate` returns. -/
theorem validate_registered_witness :
    validatorS.schema_map_.find "S" = some schemaS ∧
    (sampleEngine schemaS.getRaw sampleDocument.getRaw).1 = true ∧
    (validatorS.validate Locale.untranslated sampleEngine sampleDocument "S").result
      = Except.ok () :=
  ⟨rfl, rfl,
   (validate_registered Locale.untranslated sampleEngine validatorS sampleDocument "S"
     schemaS rfl).1.mpr rfl⟩

/-- C8: `getSchemaContentType(name)` throws `schema_not_found_error` exactly
when the name is not registered; for a registered name it returns the content
type of the schema stored under the name, which after a successful
`registerSchema(s)` is the content type of `s`. -/
theorem getSchemaContentType_spec (loc : Locale) (v : Validator) (schema_name : String) :
    ((∃ msg, (v.getSchemaContentType loc schema_name).result
        = Except.error (ValidatorError.schema_not_found_error msg))
      ↔ schema_name ∉ v.schema_map_.keys) ∧
    (∀ schema, v.schema_map_.find schema_name = some schema →
      (v.getSchemaContentType loc schema_name).result = Except.ok schema.getContentType) ∧
    (∀ s : Schema, s.getName = schema_name → schema_name ∉ v.schema_map_.keys →
      ((v.registerSchema loc s).after.getSchemaContentType loc schema_name).result
        = Except.ok s.getContentType) := by
  have hfound : ∀ (w : Validator) (schema : Schema),
      w.schema_map_.find schema_name = some schema →
      (w.getSchemaContentType loc schema_name).result = Except.ok schema.getContentType := by
    intro w schema h
    have hin : w.includesSchema schema_name = true := includesSchema_of_find h
    have hat : w.schema_map_.at schema_name = some schema := h
    simp [Validator.getSchemaContentType, hin, hat]
  refine ⟨?_, hfound v, ?_⟩
  · by_cases hkey : schema_name ∈ v.schema_map_.keys
    · have hsome := (findEntry_isSome_iff_mem schema_name v.schema_map_.entries).mpr hkey
      obtain ⟨schema, hs⟩ := Option.isSome_iff_exists.mp hsome
      have h := hfound v schema hs
      simp [h, hkey]
    · have hin := includesSchema_eq_false_of_not_mem hkey
      simp [Validator.getSchemaContentType, hin, hkey]
  · intro s hname hkey
    subst hname
    exact hfound _ s
      (registerSchema_of_not_mem loc v s hkey).2.2

/-- C8, at a concrete input: the content type registered under `S`. -/
theorem getSchemaContentType_spec_witness :
    validatorS.schema_map_.find "S" = some schemaS ∧
    (validatorS.getSchemaContentType Locale.untranslated "S").result
      = Except.ok ContentType.Json :=
  ⟨rfl, (getSchemaContentType_spec Locale.untranslated validatorS "S").2.1 schemaS rfl⟩

/-- C6 (as stated, refuted): `S` is registered and the engine rejects the
document with one error; the `validation_error` that `validate` throws carries
`does not match schema: 'S'`, not the aggregated description `ERROR1: <root>`
of the engine's error queue. -/
theorem validate_message_counterexample :
    validatorS.schema_map_.find "S" = some schemaS ∧
    (rejectingEngine schemaS.getRaw sampleDocument.getRaw).1 = false ∧
    (validatorS.validate Locale.untranslated rejectingEngine sampleDocument "S").result
      = Except.error (ValidatorError.validation_error "does not match schema: \x27S\x27") ∧
    (getValidationError Locale.untranslated
      (rejectingEngine schemaS.getRaw sampleDocument.getRaw).2).1 = "ERROR1: <root>" ∧
    (validatorS.validate Locale.untranslated rejectingEngine sampleDocument "S").result
      ≠ Except.error (ValidatorError.validation_error
          (getValidationError Locale.untranslated
            (rejectingEngine schemaS.getRaw sampleDocument.getRaw).2).1) := by
  refine ⟨rfl, rfl, rfl, rfl, ?_⟩
  intro h
  have h2 : ValidatorError.validation_error "does not match schema: \x27S\x27"
      = ValidatorError.validation_error "ERROR1: <root>" := Except.error.inj h
  exact absurd h2 (by decide)

/-- C6 (amended): when the engine rejects a document against a registered
schema, `validate` throws `validation_error` with the message
`does not match schema: '<name>'` (after translation); the aggregated
description that `getValidationError` makes of the engine's error queue is
written to the debug log, after the lock is released and the engine has run,
and is not part of the exception. -/
theorem validate_failure_message (loc : Locale) (engine : Engine) (v : Validator)
    (data : DataContainer) (schema_name : String) (schema : Schema)
    (hreg : v.schema_map_.find schema_name = some schema)
    (hfail : (engine schema.getRaw data.getRaw).1 = false) :
    (v.validate loc engine data schema_name).result
      = Except.error (ValidatorError.validation_error
          (format loc "does not match schema: \x27\x7b1\x7d\x27" schema_name)) ∧
    (v.validate loc engine data schema_name).trace
      = [Event.lock, Event.lookup schema_name, Event.unlock, Event.lookup schema_name,
         Event.engine schema data.getRaw,
         Event.logDebug (format loc "Schema validation failure: \x7b1\x7d"
           (getValidationError loc (engine schema.getRaw data.getRaw).2).1)] := by
  have hin : v.includesSchema schema_name = true := includesSchema_of_find hreg
  have hat : v.schema_map_.at schema_name = some schema := hreg
  simp [Validator.validate, Validator.includesSchemaEvents, hin, hat, validateJsonContainer,
    hfail]

/-- C6 (amended), at a concrete input: the rejected sample document. -/
theorem validate_failure_message_witness :
    validatorS.schema_map_.find "S" = some schemaS ∧
    (rejectingEngine schemaS.getRaw sampleDocument.getRaw).1 = false ∧
    (validatorS.validate Locale.untranslated rejectingEngine sampleDocument "S").result
      = Except.error (ValidatorError.validation_error
          (format Locale.untranslated "does not match schema: \x27\x7b1\x7d\x27" "S")) :=
  ⟨rfl, rfl,
   (validate_failure_message Locale.untranslated rejectingEngine validatorS sampleDocument "S"
     schemaS rfl rfl).1⟩

/-! ## The aggregated error description -/

theorem getValidationErrorLoop_popError (label : String) (q : ValidationResults)
    (err_msg : String) (err_idx : Nat) :
    getValidationErrorLoop label q err_msg err_idx =
      match popError q with
      | none => (err_msg, q)
      | some (error, rest) =>
        getValidationErrorLoop label rest
          (appendContext
            ((if !err_msg.isEmpty then err_msg ++ "  - " else err_msg)
              ++ (label ++ toString ((err_idx + 1) % UINT_MODULUS) ++ ":"))
            error.context)
          ((err_idx + 1) % UINT_MODULUS) := by
  cases q <;> rfl

theorem appendContext_eq (err_msg : String) (ctx : List String) :
    appendContext err_msg ctx = err_msg ++ contextText ctx := by
  induction ctx generalizing err_msg with
  | nil => simp [appendContext, contextText]
  | cons c rest ih => simp [appendContext, contextText, ih, String.append_assoc]

theorem String_append_ne_empty {a : String} (b : String) (ha : a ≠ "") : a ++ b ≠ "" := by
  intro h
  apply ha
  have hd : (a ++ b).data = [] := by rw [h]
  rw [String.data_append] at hd
  exact String.ext (List.append_eq_nil.mp hd).1

theorem String_isEmpty_eq_false {a : String} (ha : a ≠ "") : a.isEmpty = false := by
  cases h : a.isEmpty
  · rfl
  · exact absurd ((String.isEmpty_iff a).mp h) ha

theorem errorItem_ne_empty (label : String) (i : Nat) (e : Error) :
    errorItem label i e ≠ "" := by
  intro h
  have hd : (errorItem label i e).data = [] := by rw [h]
  simp [errorItem, String.data_append] at hd

theorem String_append_left_cancel {a b c : String} (h : a ++ b = a ++ c) : b = c := by
  have hd : (a ++ b).data = (a ++ c).data := by rw [h]
  rw [String.data_append, String.data_append] at hd
  exact String.ext (List.append_cancel_left hd)

theorem intercalate_go_ne_empty (sep : String) (items : List String) :
    ∀ acc : String, acc ≠ "" → String.intercalate.go acc sep items ≠ "" := by
  induction items with
  | nil => intro acc h; simpa [String.intercalate.go] using h
  | cons a rest ih =>
    intro acc h
    simp only [String.intercalate.go]
    exact ih _ (by rw [String.append_assoc]; exact String_append_ne_empty _ h)

theorem intercalate_go_append (sep : String) (xs ys : List String) :
    ∀ acc : String, String.intercalate.go acc sep (xs ++ ys)
      = String.intercalate.go (String.intercalate.go acc sep xs) sep ys := by
  induction xs with
  | nil => intro acc; rfl
  | cons a rest ih => intro acc; exact ih (acc ++ sep ++ a)

theorem numberedItems_append (label : String) (q r : ValidationResults) :
    ∀ first, numberedItems label first (q ++ r)
      = numberedItems label first q ++ numberedItems label (first + q.length) r := by
  induction q with
  | nil => intro first; simp [numberedItems]
  | cons e rest ih =>
    intro first
    have hsum : first + (rest.length + 1) = first + 1 + rest.length := by omega
    show errorItem label first e :: numberedItems label (first + 1) (rest ++ r)
      = errorItem label first e :: (numberedItems label (first + 1) rest
          ++ numberedItems label (first + (rest.length + 1)) r)
    rw [ih, hsum]

/-- The loop, started on a non-empty message, continues the joined items. -/
theorem getValidationErrorLoop_of_ne_empty (label : String) (q : ValidationResults) :
    ∀ (acc : String) (idx : Nat), acc ≠ "" → idx + q.length < UINT_MODULUS →
      getValidationErrorLoop label q acc idx
        = (String.intercalate.go acc "  - " (numberedItems label (idx + 1) q), []) := by
  induction q with
  | nil => intro acc idx _ _; rfl
  | cons e rest ih =>
    intro acc idx hacc hlen
    simp only [List.length_cons] at hlen
    have hidx : (idx + 1) % UINT_MODULUS = idx + 1 := Nat.mod_eq_of_lt (by omega)
    simp only [getValidationErrorLoop, String_isEmpty_eq_false hacc, Bool.not_false, if_true,
      hidx, appendContext_eq, numberedItems, String.intercalate.go]
    rw [ih _ (idx + 1) (by
      rw [String.append_assoc, String.append_assoc]; exact String_append_ne_empty _ hacc)
      (by omega)]
    simp [errorItem, String.append_assoc]

/-- The loop as `getValidationError` starts it, on the empty message. -/
theorem getValidationErrorLoop_of_empty (label : String) (q : ValidationResults) (idx : Nat)
    (hlen : idx + q.length < UINT_MODULUS) :
    getValidationErrorLoop label q "" idx
      = (String.intercalate "  - " (numberedItems label (idx + 1) q), []) := by
  cases q with
  | nil => rfl
  | cons e rest =>
    simp only [List.length_cons] at hlen
    have hidx : (idx + 1) % UINT_MODULUS = idx + 1 := Nat.mod_eq_of_lt (by omega)
    have hempty : ("" : String).isEmpty = true := rfl
    simp only [getValidationErrorLoop, hempty, Bool.not_true, Bool.false_eq_true, if_false,
      hidx, appendContext_eq, numberedItems, String.intercalate]
    rw [getValidationErrorLoop_of_ne_empty label rest _ (idx + 1) (by
      have h := errorItem_ne_empty label (idx + 1) e
      simpa [errorItem, String.append_assoc] using h) (by omega)]
    simp [errorItem, String.append_assoc]

/-- Draining `q ++ r` is draining `q` and then `r`, the counter having advanced
by the length of `q` modulo `2 ^ 32`. -/
theorem getValidationErrorLoop_append (label : String) (q r : ValidationResults) :
    ∀ (acc : String) (idx : Nat), idx < UINT_MODULUS →
      getValidationErrorLoop label (q ++ r) acc idx
        = getValidationErrorLoop label r (getValidationErrorLoop label q acc idx).1
            ((idx + q.length) % UINT_MODULUS) := by
  induction q with
  | nil =>
    intro acc idx hidx
    simp [getValidationErrorLoop, Nat.mod_eq_of_lt hidx]
  | cons e rest ih =>
    intro acc idx _
    have hpos : 0 < UINT_MODULUS := by decide
    have hstep : ((idx + 1) % UINT_MODULUS + rest.length) % UINT_MODULUS
        = (idx + (rest.length + 1)) % UINT_MODULUS := by
      rw [Nat.mod_add_mod]
      congr 1
      omega
    show getValidationErrorLoop label (rest ++ r) _ ((idx + 1) % UINT_MODULUS) = _
    rw [ih _ _ (Nat.mod_lt _ hpos), hstep]
    rfl

theorem intercalate_numberedItems_ne_empty (label : String) (q : ValidationResults)
    (first : Nat) (hq : q ≠ []) :
    String.intercalate "  - " (numberedItems label first q) ≠ "" := by
  cases q with
  | nil => exact absurd rfl hq
  | cons e rest =>
    exact intercalate_go_ne_empty _ _ _ (errorItem_ne_empty label first e)

theorem intercalate_append_singleton (sep a : String) (xs : List String) (hxs : xs ≠ []) :
    String.intercalate sep (xs ++ [a]) = String.intercalate sep xs ++ sep ++ a := by
  cases xs with
  | nil => exact absurd rfl hxs
  | cons x rest =>
    show String.intercalate.go x sep (rest ++ [a]) = String.intercalate.go x sep rest ++ sep ++ a
    rw [intercalate_go_append]
    rfl

theorem numberedItems_ne_nil (label : String) (first : Nat) (q : ValidationResults)
    (hq : q ≠ []) : numberedItems label first q ≠ [] := by
  cases q with
  | nil => exact absurd rfl hq
  | cons e rest => simp [numberedItems]

/-- On a queue of exactly `2 ^ 32` errors the counter of the last error has
wrapped around to 0. -/
theorem getValidationErrorLoop_wraps (label : String) (q : ValidationResults) (e : Error)
    (hq : q ≠ []) (hlen : q.length + 1 = UINT_MODULUS) :
    (getValidationErrorLoop label (q ++ [e]) "" 0).1
      = String.intercalate "  - " (numberedItems label 1 q) ++ "  - " ++ errorItem label 0 e := by
  have hpos : 0 < UINT_MODULUS := by decide
  rw [getValidationErrorLoop_append label q [e] "" 0 hpos,
    getValidationErrorLoop_of_empty label q 0 (by omega)]
  have hne := intercalate_numberedItems_ne_empty label q 1 hq
  have hidx : q.length % UINT_MODULUS = q.length := Nat.mod_eq_of_lt (by omega)
  have hwrap : (q.length + 1) % UINT_MODULUS = 0 := by rw [hlen]; exact Nat.mod_self _
  simp only [Nat.zero_add, hidx, getValidationErrorLoop, String_isEmpty_eq_false hne,
    Bool.not_false, if_true, appendContext_eq, errorItem]
  rw [hwrap]
  simp [String.append_assoc]

theorem aggregatedDescription_append_singleton (label : String) (q : ValidationResults)
    (e : Error) (hq : q ≠ []) :
    aggregatedDescription label (q ++ [e])
      = String.intercalate "  - " (numberedItems label 1 q) ++ "  - "
          ++ errorItem label (q.length + 1) e := by
  unfold aggregatedDescription
  rw [numberedItems_append, Nat.add_comm 1 q.length]
  exact intercalate_append_singleton _ _ _ (numberedItems_ne_nil label 1 q hq)

/-- C7 (as stated, refuted): on a queue of `2 ^ 32` errors the string returned
by `getValidationError` is not the specified one: the `unsigned int` counter
has wrapped, and the last item reads `ERROR0:` where the specification has
`ERROR4294967296:`. -/
theorem getValidationError_counterexample :
    Locale.untranslated.translate "ERROR" = "ERROR" ∧
    (getValidationError Locale.untranslated longQueue).1
      ≠ aggregatedDescription "ERROR" longQueue := by
  refine ⟨rfl, ?_⟩
  have hsplit : longQueue = List.replicate 4294967295 bareError ++ [bareError] :=
    List.replicate_succ' 4294967295 bareError
  have hlen : (List.replicate 4294967295 bareError).length + 1 = UINT_MODULUS := by
    rw [List.length_replicate]; decide
  have hq : List.replicate 4294967295 bareError ≠ [] := by
    intro h
    have h0 : (List.replicate 4294967295 bareError).length = 0 := by rw [h]; rfl
    rw [List.length_replicate] at h0
    exact absurd h0 (by decide)
  have hcode : (getValidationError Locale.untranslated longQueue).1
      = String.intercalate "  - " (numberedItems "ERROR" 1 (List.replicate 4294967295 bareError))
          ++ "  - " ++ errorItem "ERROR" 0 bareError := by
    rw [hsplit]
    exact getValidationErrorLoop_wraps "ERROR" _ bareError hq hlen
  have hspec : aggregatedDescription "ERROR" longQueue
      = String.intercalate "  - " (numberedItems "ERROR" 1 (List.replicate 4294967295 bareError))
          ++ "  - " ++ errorItem "ERROR" 4294967296 bareError := by
    rw [hsplit, aggregatedDescription_append_singleton "ERROR" _ bareError hq,
      List.length_replicate]
  rw [hcode, hspec]
  intro h
  have hitem : errorItem "ERROR" 0 bareError = errorItem "ERROR" 4294967296 bareError :=
    String_append_left_cancel h
  exact absurd hitem (by decide)

/-- C7 (amended): with the label translating to `ERROR`, on every queue of
fewer than `2 ^ 32` errors `getValidationError` returns the items of the errors
joined by `"  - "`, where the item of the `i`-th error popped is `ERROR`, the
decimal numeral of `i`, a colon, and then each context fragment preceded by one
space; the errors are numbered 1, 2, ... in pop order and the empty queue
gives the empty string. -/
theorem getValidationError_format (loc : Locale) (q : ValidationResults)
    (hlabel : loc.translate "ERROR" = "ERROR") (hlen : q.length < 2 ^ 32) :
    (getValidationError loc q).1 = aggregatedDescription "ERROR" q := by
  unfold getValidationError aggregatedDescription
  rw [hlabel, getValidationErrorLoop_of_empty "ERROR" q 0
    (by simpa [UINT_MODULUS] using hlen)]

/-- C7 (amended), at a concrete input: a queue of three errors. -/
theorem getValidationError_format_witness :
    (getValidationError Locale.untranslated sampleQueue).1
      = "ERROR1: <root> [foo]  - ERROR2:  - ERROR3: <root>" :=
  (getValidationError_format Locale.untranslated sampleQueue rfl (by decide)).trans
    (by decide)

/-! ## The data container: writing and reading back -/

theorem findMember_setMember_self (key : String) (value : JsonValue)
    (members : List (String × JsonValue)) :
    findMember key (setMember key value members) = some value := by
  induction members with
  | nil => simp [setMember, findMember]
  | cons m rest ih =>
    obtain ⟨k, old⟩ := m
    by_cases hk : k = key
    · simp [setMember, findMember, hk]
    · simp [setMember, findMember, hk, ih]

theorem ScalarType_fromJson_toJson (s : ScalarType) (x : s.denote) :
    s.fromJson? (s.toJson x) = some x := by
  cases s <;> rfl

theorem ScalarType_fromJsonList_toJson (s : ScalarType) (xs : List s.denote) :
    s.fromJsonList? (List.map s.toJson xs) = some xs := by
  induction xs with
  | nil => rfl
  | cons x rest ih =>
    simp only [List.map_cons, ScalarType.fromJsonList?, ScalarType_fromJson_toJson, ih]

theorem ValueType_getValue_toJson (t : ValueType) (ht : t ≠ ValueType.container)
    (x : t.denote) : t.getValue (t.toJson x) = x := by
  cases t with
  | scalar s =>
    simp [ValueType.getValue, ValueType.fromJson?, ValueType.toJson, ScalarType_fromJson_toJson]
  | sequence s =>
    simp [ValueType.getValue, ValueType.fromJson?, ValueType.toJson,
      ScalarType_fromJsonList_toJson]
  | container => exact absurd rfl ht

theorem getAt_setAt (t : ValueType) (value : JsonValue) (path : Path) :
    ∀ node : JsonValue, (node.setAt path value).getAt t path = t.getValue value := by
  induction path with
  | nil => intro node; simp [JsonValue.setAt, JsonValue.getAt]
  | cons key rest ih =>
    intro node
    simp only [JsonValue.setAt, JsonValue.getAt, findMember_setMember_self]
    exact ih _

theorem includesAt_setAt (value : JsonValue) (path : Path) :
    ∀ node : JsonValue, (node.setAt path value).includesAt path = true := by
  induction path with
  | nil => intro node; simp [JsonValue.includesAt]
  | cons key rest ih =>
    intro node
    simp only [JsonValue.setAt, JsonValue.includesAt, findMember_setMember_self]
    exact ih _

theorem DataContainer_get_eq_getAt (t : ValueType) (c : DataContainer) (path : Path)
    (h : t = ValueType.container → path ≠ []) : c.get t path = c.root.getAt t path := by
  unfold DataContainer.get
  split
  · exact absurd rfl (h rfl)
  · rfl

/-- C9: round trip of the data container.  For every container, every
non-empty path and every value of a scalar type or of a sequence of scalars,
after `set<T>(P, v)` the call `get<T>(P)` returns `v` and `includes(P)` holds,
whatever the container held before: this covers a path that already held a
value of any type (reset) and a path whose intermediate keys were absent. -/
theorem set_get_roundtrip (c : DataContainer) (path : Path) (t : ValueType)
    (value : t.denote) (_hpath : path ≠ []) (ht : t ≠ ValueType.container) :
    (c.set t path value).get t path = value ∧
    (c.set t path value).includes path = true ∧
    (∀ (u : ValueType) (old : u.denote),
      ((c.set u path old).set t path value).get t path = value) := by
  have hget : ∀ d : DataContainer, (d.set t path value).get t path = value := by
    intro d
    rw [DataContainer_get_eq_getAt t _ path (fun h => absurd h ht)]
    simp only [DataContainer.set, getAt_setAt]
    exact ValueType_getValue_toJson t ht value
  exact ⟨hget c, includesAt_setAt _ path c.root, fun u old => hget _⟩

/-- C9, at a concrete input: `set<int>({"level1", "level21"}, 4)` on the empty
container, whose key `level1` is absent. -/
theorem set_get_roundtrip_witness :
    (DataContainer.get (ValueType.scalar ScalarType.int)
      (DataContainer.set (ValueType.scalar ScalarType.int) DataContainer.empty
        ["level1", "level21"] (4 : Int))
      ["level1", "level21"] : Int) = 4 :=
  (set_get_roundtrip DataContainer.empty ["level1", "level21"]
    (ValueType.scalar ScalarType.int) (4 : Int) (by decide) (by decide)).1

/-! ## The data container: null-safe reads -/

theorem getAt_of_unresolved (t : ValueType) (node : JsonValue) (path : Path)
    (h : Unresolved node path) : node.getAt t path = t.nullValue := by
  induction h with
  | notObject node key rest hnot =>
    cases node with
    | object members => exact absurd rfl (hnot members)
    | null | bool _ | int _ | double _ | string _ | array _ => simp [JsonValue.getAt]
  | absent members key rest hnone => simp [JsonValue.getAt, hnone]
  | inMember members key child rest hsome _ ih => simpa [JsonValue.getAt, hsome] using ih

theorem ValueType_getValue_null (t : ValueType) : t.getValue JsonValue.null = t.nullValue := by
  cases t with
  | scalar s => cases s <;> rfl
  | sequence s => rfl
  | container => rfl

theorem getAt_of_resolvesTo (t : ValueType) (node : JsonValue) (path : Path)
    (value : JsonValue) (h : ResolvesTo node path value) :
    node.getAt t path = t.getValue value := by
  induction h with
  | here node => cases node <;> simp [JsonValue.getAt]
  | inMember members key child rest value hsome _ ih =>
    simpa [JsonValue.getAt, hsome] using ih

/-- C10: null-safe reads of the data container.  When some key of the path is
absent, or a node to be traversed is not an object, or the value at the path
is JSON null, `get<T>(P)` returns the default of `T` (it is a total function,
there is no failure): `""` for a string, `0` for an int, `false` for a bool,
the empty sequence for a sequence.  (For `T` the container itself the path is
taken non-empty: the empty path returns the whole container.) -/
theorem get_default_of_missing_or_null (c : DataContainer) (path : Path) (t : ValueType)
    (hroot : t = ValueType.container → path ≠ [])
    (h : Unresolved c.root path ∨ ResolvesTo c.root path JsonValue.null) :
    c.get t path = t.nullValue ∧
    (ValueType.scalar ScalarType.string).nullValue = "" ∧
    (ValueType.scalar ScalarType.int).nullValue = (0 : Int) ∧
    (ValueType.scalar ScalarType.bool).nullValue = false ∧
    (∀ s : ScalarType, (ValueType.sequence s).nullValue = ([] : List s.denote)) := by
  refine ⟨?_, rfl, rfl, rfl, fun _ => rfl⟩
  rw [DataContainer_get_eq_getAt t c path hroot]
  rcases h with h | h
  · exact getAt_of_unresolved t c.root path h
  · rw [getAt_of_resolvesTo t c.root path JsonValue.null h]
    exact ValueType_getValue_null t

/-- C10, at a concrete input: in the document of the unit tests the member
`goo` is a number, so the path `goo/1` runs through a node that is not an
object, and `get<int>` gives 0. -/
theorem get_default_of_missing_or_null_witness :
    Unresolved sampleDocument.root ["goo", "1"] ∧
    (sampleDocument.get (ValueType.scalar ScalarType.int) ["goo", "1"] : Int) = 0 :=
  have hwalk : Unresolved sampleDocument.root ["goo", "1"] :=
    Unresolved.inMember _ "goo" (JsonValue.int 1) ["1"] rfl
      (Unresolved.notObject (JsonValue.int 1) "1" [] (fun _ hobj => JsonValue.noConfusion hobj))
  ⟨hwalk,
   (get_default_of_missing_or_null sampleDocument ["goo", "1"]
     (ValueType.scalar ScalarType.int) (fun hc => ValueType.noConfusion hc)
     (Or.inl hwalk)).1⟩

/-! ## The data container: walking a path -/

theorem resolve_nil (node : JsonValue) : node.resolve [] = some node := by
  cases node <;> rfl

theorem resolve_cons_of_not_object (node : JsonValue) (key : String) (rest : Path)
    (hnot : ∀ members, node ≠ JsonValue.object members) :
    node.resolve (key :: rest) = none := by
  cases node with
  | object members => exact absurd rfl (hnot members)
  | null | bool _ | int _ | double _ | string _ | array _ => rfl

theorem resolve_object_cons (members : List (String × JsonValue)) (key : String)
    (rest : Path) :
    (JsonValue.object members).resolve (key :: rest)
      = (findMember key members).bind (fun child => child.resolve rest) := by
  cases h : findMember key members <;> simp [JsonValue.resolve, h]

theorem resolve_eq_some_iff (path : Path) :
    ∀ (node value : JsonValue), node.resolve path = some value ↔ ResolvesTo node path value := by
  induction path with
  | nil =>
    intro node value
    rw [resolve_nil]
    constructor
    · intro h
      cases h
      exact ResolvesTo.here node
    · intro h
      cases h
      rfl
  | cons key rest ih =>
    intro node value
    constructor
    · intro h
      cases node with
      | object members =>
        rw [resolve_object_cons] at h
        cases hfind : findMember key members with
        | none => simp [hfind] at h
        | some child =>
          simp only [hfind, Option.some_bind] at h
          exact ResolvesTo.inMember members key child rest value hfind ((ih child value).mp h)
      | null | bool _ | int _ | double _ | string _ | array _ =>
        simp [JsonValue.resolve] at h
    · intro h
      cases h with
      | inMember members _ child _ _ hfind hrest =>
        rw [resolve_object_cons, hfind]
        exact (ih child value).mpr hrest

theorem resolve_eq_none_iff (path : Path) :
    ∀ node : JsonValue, node.resolve path = none ↔ Unresolved node path := by
  induction path with
  | nil =>
    intro node
    rw [resolve_nil]
    constructor
    · intro h
      cases h
    · intro h
      cases h
  | cons key rest ih =>
    intro node
    constructor
    · intro h
      cases node with
      | object members =>
        rw [resolve_object_cons] at h
        cases hfind : findMember key members with
        | none => exact Unresolved.absent members key rest hfind
        | some child =>
          simp only [hfind, Option.some_bind] at h
          exact Unresolved.inMember members key child rest hfind ((ih child).mp h)
      | null =>
        exact Unresolved.notObject _ key rest (fun _ hobj => JsonValue.noConfusion hobj)
      | bool _ =>
        exact Unresolved.notObject _ key rest (fun _ hobj => JsonValue.noConfusion hobj)
      | int _ =>
        exact Unresolved.notObject _ key rest (fun _ hobj => JsonValue.noConfusion hobj)
      | double _ =>
        exact Unresolved.notObject _ key rest (fun _ hobj => JsonValue.noConfusion hobj)
      | string _ =>
        exact Unresolved.notObject _ key rest (fun _ hobj => JsonValue.noConfusion hobj)
      | array _ =>
        exact Unresolved.notObject _ key rest (fun _ hobj => JsonValue.noConfusion hobj)
    · intro h
      cases h with
      | notObject _ _ _ hnot => exact resolve_cons_of_not_object node key rest hnot
      | absent members _ _ hfind => rw [resolve_object_cons, hfind]; rfl
      | inMember members _ child _ hfind hrest =>
        rw [resolve_object_cons, hfind]
        exact (ih child).mpr hrest

theorem includesAt_eq_resolve (path : Path) :
    ∀ node : JsonValue, node.includesAt path = (node.resolve path).isSome := by
  induction path with
  | nil => intro node; cases node <;> rfl
  | cons key rest ih =>
    intro node
    cases node with
    | object members =>
      cases hfind : findMember key members with
      | none => simp [JsonValue.includesAt, JsonValue.resolve, hfind]
      | some child => simpa [JsonValue.includesAt, JsonValue.resolve, hfind] using ih child
    | null | bool _ | int _ | double _ | string _ | array _ => rfl

theorem typeAt_eq_resolve (path : Path) :
    ∀ node : JsonValue, node.typeAt path =
      match node.resolve path with
      | none => Except.error DataContainerError.data_key_error
      | some value => Except.ok value.getValueType := by
  induction path with
  | nil => intro node; cases node <;> rfl
  | cons key rest ih =>
    intro node
    cases node with
    | object members =>
      cases hfind : findMember key members with
      | none => simp [JsonValue.typeAt, JsonValue.resolve, hfind]
      | some child => simpa [JsonValue.typeAt, JsonValue.resolve, hfind] using ih child
    | null | bool _ | int _ | double _ | string _ | array _ => rfl

theorem getAt_eq_resolve (t : ValueType) (path : Path) :
    ∀ node : JsonValue, node.getAt t path =
      match node.resolve path with
      | none => t.nullValue
      | some value => t.getValue value := by
  induction path with
  | nil => intro node; cases node <;> rfl
  | cons key rest ih =>
    intro node
    cases node with
    | object members =>
      cases hfind : findMember key members with
      | none => simp [JsonValue.getAt, JsonValue.resolve, hfind]
      | some child => simpa [JsonValue.getAt, JsonValue.resolve, hfind] using ih child
    | null | bool _ | int _ | double _ | string _ | array _ => rfl


theorem resolve_append (pre rest : Path) :
    ∀ node : JsonValue, node.resolve (pre ++ rest)
      = (node.resolve pre).bind (fun reached => reached.resolve rest) := by
  induction pre with
  | nil => intro node; simp [resolve_nil]
  | cons key more ih =>
    intro node
    cases node with
    | object members =>
      rw [List.cons_append, resolve_object_cons, resolve_object_cons]
      cases findMember key members with
      | none => rfl
      | some child => simpa using ih child
    | null | bool _ | int _ | double _ | string _ | array _ => rfl

/-- C12: `includes(P)` is true exactly when every key of `P`, taken in order
from the root, names a member of an object node, and false exactly when the
walk fails; in particular it is false as soon as a node that is reached (the
root included) is not an object while a key is still to be looked up. -/
theorem includes_iff_every_key_resolves (c : DataContainer) (path : Path) :
    (c.includes path = true ↔ ∃ value, ResolvesTo c.root path value) ∧
    (c.includes path = false ↔ Unresolved c.root path) ∧
    (∀ (pre : Path) (key : String) (post : Path) (node : JsonValue),
      path = pre ++ key :: post → ResolvesTo c.root pre node →
      (∀ members, node ≠ JsonValue.object members) → c.includes path = false) := by
  have hinc : c.includes path = (c.root.resolve path).isSome := includesAt_eq_resolve path c.root
  refine ⟨?_, ?_, ?_⟩
  · rw [hinc, Option.isSome_iff_exists]
    exact exists_congr (fun value => resolve_eq_some_iff path c.root value)
  · rw [hinc, ← resolve_eq_none_iff]
    cases c.root.resolve path <;> simp
  · intro pre key post node hpath hpre hnot
    rw [hinc, hpath, resolve_append, (resolve_eq_some_iff pre c.root node).mpr hpre]
    simp [resolve_cons_of_not_object node key post hnot]

/-- C12, at a concrete input: on the container whose root is the bare string
`"foo"`, `includes("foo")` and `includes({"bar", "bar"})` are false; on the
document of the unit tests `includes({"foo", "bar"})` is true. -/
theorem includes_iff_every_key_resolves_witness :
    stringContainer.includes ["foo"] = false ∧
    stringContainer.includes ["bar", "bar"] = false ∧
    sampleDocument.includes ["foo", "bar"] = true :=
  ⟨(includes_iff_every_key_resolves stringContainer ["foo"]).2.2 [] "foo" []
      (JsonValue.string "foo") rfl (ResolvesTo.here _)
      (fun _ hobj => JsonValue.noConfusion hobj),
   (includes_iff_every_key_resolves stringContainer ["bar", "bar"]).2.2 [] "bar" ["bar"]
      (JsonValue.string "foo") rfl (ResolvesTo.here _)
      (fun _ hobj => JsonValue.noConfusion hobj),
   (includes_iff_every_key_resolves sampleDocument ["foo", "bar"]).1.mpr
      ⟨JsonValue.int 2,
       ResolvesTo.inMember _ "foo" (JsonValue.object [("bar", JsonValue.int 2)]) ["bar"] _ rfl
         (ResolvesTo.inMember _ "bar" (JsonValue.int 2) [] _ rfl (ResolvesTo.here _))⟩⟩


/-! ## The data container: the strict type query -/

theorem resolve_setAt_self (value : JsonValue) (path : Path) :
    ∀ node : JsonValue, (node.setAt path value).resolve path = some value := by
  induction path with
  | nil => intro node; simp [JsonValue.setAt, resolve_nil]
  | cons key rest ih =>
    intro node
    simp only [JsonValue.setAt, resolve_object_cons, findMember_setMember_self,
      Option.some_bind]
    exact ih _

theorem getValueType_toJson (t : ValueType) (ht : t ≠ ValueType.container) (v : t.denote) :
    (t.toJson v).getValueType = t.dataType := by
  cases t with
  | scalar s => cases s <;> rfl
  | sequence s => rfl
  | container => exact absurd rfl ht

theorem type_set_self (c : DataContainer) (path : Path) (t : ValueType) (v : t.denote) :
    (c.set t path v).type path = Except.ok (t.toJson v).getValueType := by
  show (c.root.setAt path (t.toJson v)).typeAt path = _
  rw [typeAt_eq_resolve, resolve_setAt_self]

/-- C11 (as stated, refuted): after `set<DataContainer>("k", d)` with `d` the
container whose root is the bare string `"foo"`, `type("k")` is `String`, not
the discriminant `Object` that matches a container. -/
theorem type_after_set_counterexample :
    (DataContainer.set ValueType.container DataContainer.empty ["k"] stringContainer).type ["k"]
      = Except.ok DataType.String ∧
    (DataContainer.set ValueType.container DataContainer.empty ["k"] stringContainer).type ["k"]
      ≠ Except.ok ValueType.container.dataType := by
  refine ⟨rfl, ?_⟩
  intro h
  have h2 : DataType.String = DataType.Object := Except.ok.inj h
  exact absurd h2 (by decide)

/-- C11 (amended): `type(P)` raises `data_key_error` exactly when some segment
of `P` does not exist; otherwise it returns the discriminant of the stored
value, in particular `Bool` for a stored `false`.  After `set<T>(P, v)` it
returns the discriminant of the node that was stored: the one matching `T` for
a scalar or a sequence (`Bool`, `Int`, `Double`, `String`, `Array`), and for a
container the discriminant of the root of the container that was copied in,
which is `Object` when that root is an object. -/
theorem type_strict (c : DataContainer) (path : Path) :
    (c.type path = Except.error DataContainerError.data_key_error
      ↔ Unresolved c.root path) ∧
    (∀ value, ResolvesTo c.root path value → c.type path = Except.ok value.getValueType) ∧
    (ResolvesTo c.root path (JsonValue.bool false) → c.type path = Except.ok DataType.Bool) ∧
    (∀ (t : ValueType) (v : t.denote), t ≠ ValueType.container →
      (c.set t path v).type path = Except.ok t.dataType) ∧
    (∀ d : DataContainer,
      (c.set ValueType.container path d).type path = Except.ok d.root.getValueType) ∧
    (∀ (d : DataContainer) (members : List (String × JsonValue)),
      d.root = JsonValue.object members →
      (c.set ValueType.container path d).type path = Except.ok DataType.Object) := by
  have htype : c.type path =
      match c.root.resolve path with
      | none => Except.error DataContainerError.data_key_error
      | some value => Except.ok value.getValueType := typeAt_eq_resolve path c.root
  have hres : ∀ value, ResolvesTo c.root path value →
      c.type path = Except.ok value.getValueType := by
    intro value h
    rw [htype, (resolve_eq_some_iff path c.root value).mpr h]
  refine ⟨?_, hres, fun h => hres _ h, ?_, ?_, ?_⟩
  · rw [htype, ← resolve_eq_none_iff]
    cases c.root.resolve path <;> simp
  · intro t v ht
    rw [type_set_self, getValueType_toJson t ht v]
  · intro d
    exact type_set_self c path ValueType.container d
  · intro d members hd
    have h := type_set_self c path ValueType.container d
    simp only [ValueType.toJson, hd, JsonValue.getValueType] at h
    exact h

/-- C11 (amended), at a concrete input: `type("foo")` on the empty container
raises `data_key_error`, and after `set<bool>("b_entry", false)` the type of
`b_entry` is `Bool`. -/
theorem type_strict_witness :
    DataContainer.empty.type ["foo"] = Except.error DataContainerError.data_key_error ∧
    (DataContainer.set (ValueType.scalar ScalarType.bool) DataContainer.empty ["b_entry"]
      false).type ["b_entry"] = Except.ok DataType.Bool :=
  ⟨(type_strict DataContainer.empty ["foo"]).1.mpr (Unresolved.absent [] "foo" [] rfl),
   (type_strict DataContainer.empty ["b_entry"]).2.2.2.1 (ValueType.scalar ScalarType.bool)
     false (fun hc => ValueType.noConfusion hc)⟩


/-! ## The data container: top-level keys -/

theorem findMember_isSome_iff_mem (key : String) (members : List (String × JsonValue)) :
    (findMember key members).isSome = true ↔ key ∈ members.map Prod.fst := by
  induction members with
  | nil => simp [findMember]
  | cons m rest ih =>
    obtain ⟨k, value⟩ := m
    by_cases hk : k = key
    · simp [findMember, hk]
    · have hk2 : ¬ key = k := fun h => hk h.symm
      simp [findMember, hk, hk2, ih]

theorem keys_setMember (key : String) (value : JsonValue)
    (members : List (String × JsonValue)) :
    (setMember key value members).map Prod.fst
      = if key ∈ members.map Prod.fst then members.map Prod.fst
        else members.map Prod.fst ++ [key] := by
  induction members with
  | nil => simp [setMember]
  | cons m rest ih =>
    obtain ⟨k, old⟩ := m
    by_cases hk : k = key
    · simp [setMember, hk]
    · have hk2 : ¬ key = k := fun h => hk h.symm
      simp only [setMember, hk, if_false, List.map_cons, ih, List.mem_cons, hk2, false_or]
      split <;> simp

theorem keys_eq_membersOrEmpty (c : DataContainer) :
    c.keys = c.root.membersOrEmpty.map Prod.fst := by
  unfold DataContainer.keys
  cases c.root <;> rfl

/-- C15: `keys()` returns the top-level keys of the root object, in the order
of the document, and the empty sequence when the root is the empty object or
not an object; a key is listed exactly when `includes` holds for it, and a
`set` of a top-level key keeps the list when the key is present and appends the
key when it is not.  For the container built from `{"a":1,"b":2}` it is
`["a", "b"]`, of length 2, and after `set<int>("a", 4)` on the empty container
it is `["a"]`. -/
theorem keys_spec (c : DataContainer) :
    (∀ members, c.root = JsonValue.object members → c.keys = members.map Prod.fst) ∧
    ((∀ members, c.root ≠ JsonValue.object members) → c.keys = []) ∧
    (c.root = JsonValue.object [] → c.keys = []) ∧
    (∀ key, key ∈ c.keys ↔ c.includes [key] = true) ∧
    (∀ (t : ValueType) (key : String) (v : t.denote),
      (c.set t [key] v).keys = if key ∈ c.keys then c.keys else c.keys ++ [key]) ∧
    abDocument.keys = ["a", "b"] ∧
    abDocument.keys.length = 2 ∧
    (DataContainer.set (ValueType.scalar ScalarType.int) DataContainer.empty ["a"]
      (4 : Int)).keys = ["a"] := by
  refine ⟨?_, ?_, ?_, ?_, ?_, rfl, rfl, rfl⟩
  · intro members h
    simp [DataContainer.keys, h]
  · intro hnot
    unfold DataContainer.keys
    cases hroot : c.root with
    | object members => exact absurd hroot (hnot members)
    | null | bool _ | int _ | double _ | string _ | array _ => rfl
  · intro h
    simp [DataContainer.keys, h]
  · intro key
    unfold DataContainer.keys DataContainer.includes
    cases c.root with
    | object members =>
      rw [← findMember_isSome_iff_mem]
      cases hfind : findMember key members <;> simp [JsonValue.includesAt, hfind]
    | null | bool _ | int _ | double _ | string _ | array _ => simp [JsonValue.includesAt]
  · intro t key v
    rw [keys_eq_membersOrEmpty c]
    show (setMember key _ c.root.membersOrEmpty).map Prod.fst = _
    exact keys_setMember key _ _


/-! ## The data container: what `set` leaves alone -/

theorem findMember_setMember_of_ne (key other : String) (value : JsonValue)
    (members : List (String × JsonValue)) (hne : other ≠ key) :
    findMember other (setMember key value members) = findMember other members := by
  induction members with
  | nil =>
    have hne2 : ¬ key = other := fun h => hne h.symm
    simp [setMember, findMember, hne2]
  | cons m rest ih =>
    obtain ⟨k, old⟩ := m
    have hne2 : ¬ key = other := fun h => hne h.symm
    by_cases hk : k = key
    · subst hk
      simp [setMember, findMember, hne2]
    · by_cases hko : k = other
      · subst hko
        simp [setMember, findMember, hk]
      · simp [setMember, findMember, hk, hko, ih]

theorem resolve_membersOrEmpty_cons (node : JsonValue) (key : String) (rest : Path) :
    node.resolve (key :: rest)
      = (findMember key node.membersOrEmpty).bind (fun child => child.resolve rest) := by
  cases node with
  | object members => exact resolve_object_cons members key rest
  | null | bool _ | int _ | double _ | string _ | array _ => rfl

/-- Writing at `P` does not change where a path `Q` leads, when neither path
is an initial segment of the other. -/
theorem resolve_setAt_of_incomparable (value : JsonValue) (P : Path) :
    ∀ (node : JsonValue) (Q : Path), (¬ ∃ r, Q ++ r = P) → (¬ ∃ r, P ++ r = Q) →
      (node.setAt P value).resolve Q = node.resolve Q := by
  induction P with
  | nil => intro node Q _ h; exact absurd ⟨Q, rfl⟩ h
  | cons k ps ih =>
    intro node Q hQP hPQ
    cases Q with
    | nil => exact absurd ⟨k :: ps, rfl⟩ hQP
    | cons k2 qs =>
      rw [resolve_membersOrEmpty_cons node k2 qs]
      simp only [JsonValue.setAt, resolve_object_cons]
      by_cases hk : k2 = k
      · subst hk
        have hqp : ¬ ∃ r, qs ++ r = ps := fun ⟨r, hr⟩ => hQP ⟨r, by simp [hr]⟩
        have hpq : ¬ ∃ r, ps ++ r = qs := fun ⟨r, hr⟩ => hPQ ⟨r, by simp [hr]⟩
        rw [findMember_setMember_self, Option.some_bind, ih _ qs hqp hpq]
        cases hfind : findMember k2 node.membersOrEmpty with
        | some child => rfl
        | none =>
          cases qs with
          | nil => exact absurd ⟨ps, rfl⟩ hqp
          | cons k3 rest => rfl
      · rw [findMember_setMember_of_ne k k2 _ _ hk]

theorem resolve_setAt_initial (value : JsonValue) (R rest : Path) (hrest : rest ≠ []) :
    ∀ node : JsonValue, ∃ members,
      (node.setAt (R ++ rest) value).resolve R = some (JsonValue.object members) := by
  induction R with
  | nil =>
    intro node
    cases rest with
    | nil => exact absurd rfl hrest
    | cons k more => exact ⟨_, by rw [resolve_nil]; rfl⟩
  | cons k more ih =>
    intro node
    simp only [List.cons_append, JsonValue.setAt, resolve_object_cons,
      findMember_setMember_self, Option.some_bind]
    exact ih _

/-- C13 (as stated, refuted): on the empty container, whose root is an object
and stays one, `set<DataContainer>("k", d)` with `d` built from
`{"a" : 1, "b" : 2}` creates the member `k`; no node is replaced.  The path
`{"k", "a"}` is not an initial segment of the path written, and yet `includes`
and `get<int>` at it differ before and after: the path continues the written
path into the value that was stored. -/
theorem set_frame_counterexample :
    DataContainer.empty.root = JsonValue.object [] ∧
    DataContainer.empty.includes ["k"] = false ∧
    (¬ ∃ r, ["k", "a"] ++ r = ["k"]) ∧
    DataContainer.empty.includes ["k", "a"] = false ∧
    (DataContainer.set ValueType.container DataContainer.empty ["k"] abDocument).includes
      ["k", "a"] = true ∧
    (DataContainer.empty.get (ValueType.scalar ScalarType.int) ["k", "a"] : Int) = 0 ∧
    (DataContainer.get (ValueType.scalar ScalarType.int)
      (DataContainer.set ValueType.container DataContainer.empty ["k"] abDocument)
      ["k", "a"] : Int) = 1 := by
  refine ⟨rfl, rfl, ?_, rfl, rfl, rfl, rfl⟩
  rintro ⟨r, hr⟩
  simp at hr

/-- C13 (amended): `set<T>(P, v)` changes only the addressed path.  After the
call every proper initial segment of `P` leads to an object node (absent
intermediate objects are created, and an intermediate node that was not an
object has been replaced by one), and for every path `Q` that is neither an
initial segment of `P` nor a continuation of `P`, `get<U>(Q)` for every `U`,
`includes(Q)` and `type(Q)` give the same result before and after. -/
theorem set_frame (c : DataContainer) (P : Path) (t : ValueType) (v : t.denote) :
    (∀ R rest : Path, P = R ++ rest → rest ≠ [] →
      ∃ members, ResolvesTo (c.set t P v).root R (JsonValue.object members)) ∧
    (∀ Q : Path, (¬ ∃ r, Q ++ r = P) → (¬ ∃ r, P ++ r = Q) →
      (∀ u : ValueType, (c.set t P v).get u Q = c.get u Q) ∧
      (c.set t P v).includes Q = c.includes Q ∧
      (c.set t P v).type Q = c.type Q) := by
  constructor
  · intro R rest hP hrest
    subst hP
    obtain ⟨members, h⟩ := resolve_setAt_initial (t.toJson v) R rest hrest c.root
    exact ⟨members, (resolve_eq_some_iff R _ _).mp h⟩
  · intro Q hQP hPQ
    have hres : (c.set t P v).root.resolve Q = c.root.resolve Q :=
      resolve_setAt_of_incomparable (t.toJson v) P c.root Q hQP hPQ
    have hQ : Q ≠ [] := fun h => hQP ⟨P, by simp [h]⟩
    refine ⟨fun u => ?_, ?_, ?_⟩
    · rw [DataContainer_get_eq_getAt u _ Q (fun _ => hQ),
        DataContainer_get_eq_getAt u c Q (fun _ => hQ), getAt_eq_resolve, getAt_eq_resolve,
        hres]
    · show (c.set t P v).root.includesAt Q = c.root.includesAt Q
      rw [includesAt_eq_resolve, includesAt_eq_resolve, hres]
    · show (c.set t P v).root.typeAt Q = c.root.typeAt Q
      rw [typeAt_eq_resolve, typeAt_eq_resolve, hres]


/-! ## Sequences of registrations -/

theorem find_insert_of_ne {β : Type} (m : StdMap β) (p : String × β) (key : String)
    (hne : p.1 ≠ key) : (m.insert p).find key = m.find key := by
  unfold StdMap.insert
  split
  · rfl
  · show StdMap.findEntry key (m.entries ++ [p]) = StdMap.findEntry key m.entries
    cases h : StdMap.findEntry key m.entries with
    | some value => exact findEntry_append_of_some key m.entries [p] value h
    | none =>
      rw [findEntry_append_of_none key m.entries [p] h]
      simp [StdMap.findEntry, hne]

theorem registerSchema_after_find_of_ne (loc : Locale) (v : Validator) (schema : Schema)
    (name : String) (hne : schema.getName ≠ name) :
    (v.registerSchema loc schema).after.schema_map_.find name = v.schema_map_.find name := by
  by_cases hin : v.includesSchema schema.getName = true
  · simp [Validator.registerSchema, hin]
  · simp only [Validator.registerSchema, hin, Bool.false_eq_true, if_false]
    exact find_insert_of_ne v.schema_map_ (schema.getName, schema) name hne

theorem registerSchema_after_find_of_some (loc : Locale) (v : Validator) (schema : Schema)
    (name : String) (stored : Schema) (h : v.schema_map_.find name = some stored) :
    (v.registerSchema loc schema).after.schema_map_.find name = some stored := by
  by_cases hin : v.includesSchema schema.getName = true
  · simpa [Validator.registerSchema, hin] using h
  · simp only [Validator.registerSchema, hin, Bool.false_eq_true, if_false]
    exact find_insert_of_find_eq_some v.schema_map_ (schema.getName, schema) name stored h

/-- After a sequence of registrations a name maps to what it mapped to before,
or else to the first schema of the sequence that carries the name. -/
theorem find_registerAll (loc : Locale) (schemas : List Schema) (name : String) :
    ∀ v : Validator, (v.registerAll loc schemas).schema_map_.find name
      = match v.schema_map_.find name with
        | some stored => some stored
        | none => schemas.find? (fun s => s.getName == name) := by
  induction schemas with
  | nil => intro v; cases h : v.schema_map_.find name <;> simp [Validator.registerAll, h]
  | cons schema rest ih =>
    intro v
    rw [Validator.registerAll, ih]
    cases hfind : v.schema_map_.find name with
    | some stored => simp [registerSchema_after_find_of_some loc v schema name stored hfind]
    | none =>
      by_cases hname : schema.getName = name
      · have hkey : schema.getName ∉ v.schema_map_.keys := by
          rw [hname]
          exact (findEntry_eq_none_iff name v.schema_map_.entries).mp hfind
        have hreg := (registerSchema_of_not_mem loc v schema hkey).2.2
        rw [hname] at hreg
        simp [hreg, List.find?, hname]
      · have hbeq : (schema.getName == name) = false := by simpa using hname
        rw [registerSchema_after_find_of_ne loc v schema name hname, hfind]
        simp [List.find?, hbeq]

/-- C14: after any sequence of `registerSchema` calls on a freshly constructed
`Validator`, `includesSchema(n)` is true exactly when some call of the sequence
carried a schema named `n`, and the schema stored under `n` is the one carried
by the first such call. -/
theorem registerAll_first_wins (loc : Locale) (schemas : List Schema) (n : String) :
    (∀ m, Validator.new.includesSchema m = false) ∧
    ((Validator.new.registerAll loc schemas).includesSchema n = true
      ↔ ∃ s ∈ schemas, s.getName = n) ∧
    (∀ (earlier : List Schema) (s : Schema) (later : List Schema),
      schemas = earlier ++ s :: later → s.getName = n →
      (∀ e ∈ earlier, e.getName ≠ n) →
      (Validator.new.registerAll loc schemas).schema_map_.find n = some s) := by
  have hfind : (Validator.new.registerAll loc schemas).schema_map_.find n
      = schemas.find? (fun s => s.getName == n) := by
    rw [find_registerAll]
    rfl
  refine ⟨fun _ => rfl, ?_, ?_⟩
  · unfold Validator.includesSchema
    rw [hfind, List.find?_isSome]
    simp
  · intro earlier s later hsplit hname hearlier
    rw [hfind, hsplit, List.find?_append]
    have hnone : List.find? (fun s => s.getName == n) earlier = none := by
      rw [List.find?_eq_none]
      intro e he
      simpa using hearlier e he
    simp [hnone, List.find?, hname]

/-- C14, at a concrete input: `schemaS` then `schemaS2`, both named `S`: the
first one is the one stored. -/
theorem registerAll_first_wins_witness :
    (Validator.new.registerAll Locale.untranslated [schemaS, schemaS2]).schema_map_.find "S"
      = some schemaS :=
  (registerAll_first_wins Locale.untranslated [schemaS, schemaS2] "S").2.2 [] schemaS
    [schemaS2] rfl rfl (fun _ he => absurd he (List.not_mem_nil _))

/-! ## Construction from another validator -/

/-- C19: constructing a `Validator` from another one gives a registry with the
same name-to-schema mapping as the source: `includesSchema` and
`getSchemaContentType` agree with the source for every name, and the source is
left as it was (its map is copied, not moved from). -/
theorem moveConstruct_copies (loc : Locale) (other_validator : Validator) (name : String) :
    (Validator.moveConstruct other_validator).1.schema_map_ = other_validator.schema_map_ ∧
    (Validator.moveConstruct other_validator).1.schema_map_.find name
      = other_validator.schema_map_.find name ∧
    (Validator.moveConstruct other_validator).1.includesSchema name
      = other_validator.includesSchema name ∧
    ((Validator.moveConstruct other_validator).1.getSchemaContentType loc name).result
      = (other_validator.getSchemaContentType loc name).result ∧
    (Validator.moveConstruct other_validator).2 = other_validator ∧
    (Validator.moveConstruct other_validator).2.schema_map_.find name
      = other_validator.schema_map_.find name :=
  ⟨rfl, rfl, rfl, rfl, rfl, rfl⟩


/-! ## Lock discipline -/

theorem lockHeld_of_no_lock (events : List Event)
    (h : ∀ e ∈ events, e.isLock = false) : lockHeld false events = false := by
  induction events with
  | nil => rfl
  | cons e rest ih =>
    have hrest : ∀ x ∈ rest, x.isLock = false := fun x hx => h x (List.mem_cons_of_mem _ hx)
    have he := h e (List.mem_cons_self _ _)
    cases e with
    | lock => simp [Event.isLock] at he
    | unlock => exact ih hrest
    | lookup _ => exact ih hrest
    | insert _ => exact ih hrest
    | engine _ _ => exact ih hrest
    | logDebug _ => exact ih hrest

/-- In a trace that starts with lock, lookup, unlock and goes on without
touching the lock, the lock is free whenever the engine runs. -/
theorem lockHeld_before_engine (name : String) (rest pre post : List Event) (e : Event)
    (hrest : ∀ x ∈ rest, x.isLock = false ∧ x.isUnlock = false)
    (hsplit : Event.lock :: Event.lookup name :: Event.unlock :: rest = pre ++ e :: post)
    (he : e.isEngine = true) : lockHeld false pre = false := by
  cases pre with
  | nil =>
    simp only [List.nil_append, List.cons.injEq] at hsplit
    rw [← hsplit.1] at he
    simp [Event.isEngine] at he
  | cons a pre1 =>
    cases pre1 with
    | nil =>
      simp only [List.cons_append, List.nil_append, List.cons.injEq] at hsplit
      rw [← hsplit.2.1] at he
      simp [Event.isEngine] at he
    | cons b pre2 =>
      cases pre2 with
      | nil =>
        simp only [List.cons_append, List.nil_append, List.cons.injEq] at hsplit
        rw [← hsplit.2.2.1] at he
        simp [Event.isEngine] at he
      | cons c pre3 =>
        simp only [List.cons_append, List.cons.injEq] at hsplit
        obtain ⟨ha, hb, hc, hrest3⟩ := hsplit
        subst ha hb hc
        show lockHeld false pre3 = false
        apply lockHeld_of_no_lock
        intro x hx
        exact (hrest x (by rw [hrest3]; exact List.mem_append_left _ hx)).1

/-- The shape of every trace of `validate`. -/
theorem validate_trace_shape (loc : Locale) (engine : Engine) (v : Validator)
    (data : DataContainer) (schema_name : String) :
    ∃ rest, (v.validate loc engine data schema_name).trace
        = Event.lock :: Event.lookup schema_name :: Event.unlock :: rest ∧
      (∀ x ∈ rest, x.isLock = false ∧ x.isUnlock = false) := by
  unfold Validator.validate
  cases hin : v.includesSchema schema_name with
  | false => exact ⟨[], by simp [Validator.includesSchemaEvents]⟩
  | true =>
    cases hat : v.schema_map_.at schema_name with
    | none =>
      exact ⟨[Event.lookup schema_name],
        by simp [Validator.includesSchemaEvents, Event.isLock, Event.isUnlock]⟩
    | some schema =>
      cases hrun : (engine schema.getRaw data.getRaw).1 with
      | false =>
        exact ⟨[Event.lookup schema_name, Event.engine schema data.getRaw,
          Event.logDebug (format loc "Schema validation failure: \x7b1\x7d"
            (getValidationError loc (engine schema.getRaw data.getRaw).2).1)],
          by simp [Validator.includesSchemaEvents, validateJsonContainer, hrun, Event.isLock,
            Event.isUnlock]⟩
      | true =>
        exact ⟨[Event.lookup schema_name, Event.engine schema data.getRaw],
          by simp [Validator.includesSchemaEvents, validateJsonContainer, hrun, Event.isLock,
            Event.isUnlock]⟩

/-- C16: lock discipline of `validate`.  On every execution, returning or
throwing, the trace starts by acquiring `lookup_mutex_`, then makes the
existence check, then releases the mutex, and never touches the mutex again;
so the mutex is free whenever the external engine runs, and it is free when
`validate` is left. -/
theorem validate_lock_discipline (loc : Locale) (engine : Engine) (v : Validator)
    (data : DataContainer) (schema_name : String) :
    (∃ rest, (v.validate loc engine data schema_name).trace
        = Event.lock :: Event.lookup schema_name :: Event.unlock :: rest ∧
      (∀ x ∈ rest, x.isLock = false ∧ x.isUnlock = false)) ∧
    lockHeld false [Event.lock] = true ∧
    (∀ (pre post : List Event) (e : Event),
      (v.validate loc engine data schema_name).trace = pre ++ e :: post →
      e.isEngine = true → lockHeld false pre = false) ∧
    lockHeld false (v.validate loc engine data schema_name).trace = false := by
  obtain ⟨rest, htrace, hrest⟩ := validate_trace_shape loc engine v data schema_name
  refine ⟨⟨rest, htrace, hrest⟩, rfl, ?_, ?_⟩
  · intro pre post e hsplit he
    rw [htrace] at hsplit
    exact lockHeld_before_engine schema_name rest pre post e hrest hsplit he
  · rw [htrace]
    show lockHeld false rest = false
    exact lockHeld_of_no_lock rest (fun x hx => (hrest x hx).1)

/-- C16, at a concrete input: a successful validation against `S`; the engine
event is the fifth of the trace and the lock is free before it. -/
theorem validate_lock_discipline_witness :
    (validatorS.validate Locale.untranslated sampleEngine sampleDocument "S").trace
      = [Event.lock, Event.lookup "S", Event.unlock, Event.lookup "S"]
        ++ Event.engine schemaS sampleDocument.getRaw :: [] ∧
    lockHeld false [Event.lock, Event.lookup "S", Event.unlock, Event.lookup "S"] = false :=
  ⟨rfl,
   (validate_lock_discipline Locale.untranslated sampleEngine validatorS sampleDocument
     "S").2.2.1 [Event.lock, Event.lookup "S", Event.unlock, Event.lookup "S"] []
     (Event.engine schemaS sampleDocument.getRaw) rfl rfl⟩


/-- C17 (code defect): the failing input is a call of `includesSchema("S")`
from outside, on a validator that holds `S`.  The call returns `true` after a
single read of the registry: no event of the call acquires `lookup_mutex_`,
and the mutex is not held when the registry is read.  The sibling reads
`validate` and `getSchemaContentType`, and `registerSchema`, on the same
validator and name, acquire the mutex before the same existence check and
release it afterwards. -/
theorem includesSchema_reads_without_lock :
    (validatorS.includesSchemaCall "S").result = Except.ok true ∧
    (validatorS.includesSchemaCall "S").trace = [Event.lookup "S"] ∧
    ¬ (∃ e ∈ (validatorS.includesSchemaCall "S").trace, e.isLock = true) ∧
    (∀ (pre post : List Event) (e : Event),
      (validatorS.includesSchemaCall "S").trace = pre ++ e :: post →
      lockHeld false pre = false) ∧
    (validatorS.validate Locale.untranslated sampleEngine sampleDocument "S").trace
      = [Event.lock, Event.lookup "S", Event.unlock, Event.lookup "S",
         Event.engine schemaS sampleDocument.getRaw] ∧
    (validatorS.getSchemaContentType Locale.untranslated "S").trace
      = [Event.lock, Event.lookup "S", Event.unlock, Event.lookup "S"] ∧
    (validatorS.registerSchema Locale.untranslated schemaS2).trace
      = [Event.lock, Event.lookup "S", Event.unlock] ∧
    lockHeld false [Event.lock] = true := by
  have htrace : (validatorS.includesSchemaCall "S").trace = [Event.lookup "S"] := rfl
  refine ⟨rfl, htrace, ?_, ?_, rfl, rfl, rfl, rfl⟩
  · rintro ⟨e, he, hlock⟩
    rw [htrace, List.mem_singleton] at he
    rw [he] at hlock
    exact absurd hlock (by decide)
  · intro pre post e hsplit
    rw [htrace] at hsplit
    cases pre with
    | nil => rfl
    | cons a rest =>
      have hlen := congrArg List.length hsplit
      simp only [List.length_cons, List.length_nil, List.length_append] at hlen
      omega

/-! ## Draining the error queue -/

theorem numberedItemsMod_congr (label : String) (q : ValidationResults) :
    ∀ a b : Nat, a % UINT_MODULUS = b % UINT_MODULUS →
      numberedItemsMod label a q = numberedItemsMod label b q := by
  induction q with
  | nil => intro a b _; rfl
  | cons e rest ih =>
    intro a b hab
    have hnext : (a + 1) % UINT_MODULUS = (b + 1) % UINT_MODULUS := by
      rw [Nat.add_mod a 1, Nat.add_mod b 1, hab]
    simp only [numberedItemsMod, hab, ih (a + 1) (b + 1) hnext]

theorem numberedItemsMod_length (label : String) (q : ValidationResults) :
    ∀ first : Nat, (numberedItemsMod label first q).length = q.length := by
  induction q with
  | nil => intro first; rfl
  | cons e rest ih => intro first; simp [numberedItemsMod, ih]

/-- The loop on any queue, started on a non-empty message. -/
theorem getValidationErrorLoop_mod_of_ne_empty (label : String) (q : ValidationResults) :
    ∀ (acc : String) (idx : Nat), acc ≠ "" →
      getValidationErrorLoop label q acc idx
        = (String.intercalate.go acc "  - " (numberedItemsMod label (idx + 1) q), []) := by
  induction q with
  | nil => intro acc idx _; rfl
  | cons e rest ih =>
    intro acc idx hacc
    have hcongr : numberedItemsMod label ((idx + 1) % UINT_MODULUS + 1) rest
        = numberedItemsMod label (idx + 1 + 1) rest :=
      numberedItemsMod_congr label rest _ _ (by rw [Nat.mod_add_mod])
    simp only [getValidationErrorLoop, String_isEmpty_eq_false hacc, Bool.not_false, if_true,
      appendContext_eq, numberedItemsMod, String.intercalate.go]
    rw [ih _ _ (by
      rw [String.append_assoc, String.append_assoc]; exact String_append_ne_empty _ hacc),
      hcongr]
    simp [errorItem, String.append_assoc]

/-- The loop on any queue, as `getValidationError` starts it. -/
theorem getValidationErrorLoop_mod_of_empty (label : String) (q : ValidationResults)
    (idx : Nat) :
    getValidationErrorLoop label q "" idx
      = (String.intercalate "  - " (numberedItemsMod label (idx + 1) q), []) := by
  cases q with
  | nil => rfl
  | cons e rest =>
    have hempty : ("" : String).isEmpty = true := rfl
    have hcongr : numberedItemsMod label ((idx + 1) % UINT_MODULUS + 1) rest
        = numberedItemsMod label (idx + 1 + 1) rest :=
      numberedItemsMod_congr label rest _ _ (by rw [Nat.mod_add_mod])
    simp only [getValidationErrorLoop, hempty, Bool.not_true, Bool.false_eq_true, if_false,
      appendContext_eq, numberedItemsMod, String.intercalate]
    rw [getValidationErrorLoop_mod_of_ne_empty label rest _ _ (by
      have h := errorItem_ne_empty label ((idx + 1) % UINT_MODULUS) e
      simpa [errorItem, String.append_assoc] using h), hcongr]
    simp [errorItem, String.append_assoc]

/-- Every iteration of the loop pops exactly one error. -/
theorem loopIterate_pops (label : String) :
    ∀ (k : Nat) (s final : LoopState), loopIterate label k s = some final →
      final.validation_results.length + k = s.validation_results.length := by
  intro k
  induction k with
  | zero =>
    intro s final h
    simp only [loopIterate, Option.some.injEq] at h
    rw [h]
    rfl
  | succ k ih =>
    intro s final h
    obtain ⟨q, msg, idx⟩ := s
    cases q with
    | nil => simp [loopIterate, loopStep, popError] at h
    | cons e rest =>
      simp only [loopIterate, loopStep, popError] at h
      have hrest := ih _ final h
      simp only [List.length_cons] at hrest ⊢
      omega

/-- The loop runs for as many iterations as the queue has errors, and ends with
the result of `getValidationErrorLoop`. -/
theorem loopIterate_length (label : String) (q : ValidationResults) :
    ∀ (msg : String) (idx : Nat), ∃ final,
      loopIterate label q.length ⟨q, msg, idx⟩ = some final ∧
      final.validation_results = [] ∧
      loopStep label final = none ∧
      final.err_msg = (getValidationErrorLoop label q msg idx).1 := by
  induction q with
  | nil => intro msg idx; exact ⟨⟨[], msg, idx⟩, rfl, rfl, rfl, rfl⟩
  | cons e rest ih =>
    intro msg idx
    obtain ⟨final, hrun, hempty, hstop, hmsg⟩ := ih
      (appendContext
        ((if !msg.isEmpty then msg ++ "  - " else msg)
          ++ (label ++ toString ((idx + 1) % UINT_MODULUS) ++ ":")) e.context)
      ((idx + 1) % UINT_MODULUS)
    exact ⟨final, hrun, hempty, hstop, hmsg⟩


/-- C18: on every queue of `n` errors the loop of `getValidationError` makes
exactly `n` iterations, each of which pops one error, and is left at the next
evaluation of its condition with the queue empty; the string returned joins
`n` items, one for each error in pop order.  So `validateJsonContainer`, when
the engine reports failure, logs a description of all the errors reported and
not only of the first. -/
theorem getValidationError_drains (loc : Locale) (q : ValidationResults) :
    (∃ final, loopIterate (loc.translate "ERROR") q.length ⟨q, "", 0⟩ = some final ∧
      final.validation_results = [] ∧
      loopStep (loc.translate "ERROR") final = none ∧
      final.err_msg = (getValidationError loc q).1) ∧
    (∀ (k : Nat) (s : LoopState), loopIterate (loc.translate "ERROR") k ⟨q, "", 0⟩ = some s →
      s.validation_results.length + k = q.length) ∧
    (getValidationError loc q).2 = [] ∧
    (getValidationError loc q).1
      = String.intercalate "  - " (numberedItemsMod (loc.translate "ERROR") 1 q) ∧
    (numberedItemsMod (loc.translate "ERROR") 1 q).length = q.length ∧
    (∀ (engine : Engine) (data : DataContainer) (schema : Schema),
      (engine schema.getRaw data.getRaw).1 = false →
      (validateJsonContainer loc engine data schema).1
        = [Event.engine schema data.getRaw,
           Event.logDebug (format loc "Schema validation failure: \x7b1\x7d"
             (String.intercalate "  - "
               (numberedItemsMod (loc.translate "ERROR") 1
                 (engine schema.getRaw data.getRaw).2)))]) := by
  have hloop : ∀ r : ValidationResults, getValidationError loc r
      = (String.intercalate "  - " (numberedItemsMod (loc.translate "ERROR") 1 r), []) :=
    fun r => getValidationErrorLoop_mod_of_empty (loc.translate "ERROR") r 0
  refine ⟨loopIterate_length (loc.translate "ERROR") q "" 0, ?_, ?_, ?_, ?_, ?_⟩
  · intro k s h
    exact loopIterate_pops (loc.translate "ERROR") k ⟨q, "", 0⟩ s h
  · rw [hloop]
  · rw [hloop]
  · exact numberedItemsMod_length (loc.translate "ERROR") q 1
  · intro engine data schema hfail
    simp [validateJsonContainer, hfail, hloop]

/-- C18, at a concrete input: the loop on the queue of three errors ends, after
three iterations, with all three errors in the message. -/
theorem getValidationError_drains_witness :
    ∃ final, loopIterate "ERROR" 3 ⟨sampleQueue, "", 0⟩ = some final ∧
      final.validation_results = [] ∧
      loopStep "ERROR" final = none ∧
      final.err_msg = "ERROR1: <root> [foo]  - ERROR2:  - ERROR3: <root>" :=
  (getValidationError_drains Locale.untranslated sampleQueue).1


/-! ## Instances of the frame and key theorems -/

/-- C13 (amended), at a concrete input: in the unit test on nested structures,
`set<string>({"level1", "level22"}, "a string")` leaves the value at
`{"level1", "level21"}` as it was. -/
theorem set_frame_witness :
    (DataContainer.get (ValueType.scalar ScalarType.int)
      (DataContainer.set (ValueType.scalar ScalarType.string) nestedContainer
        ["level1", "level22"] "a string")
      ["level1", "level21"] : Int)
      = (nestedContainer.get (ValueType.scalar ScalarType.int) ["level1", "level21"] : Int) :=
  ((set_frame nestedContainer ["level1", "level22"] (ValueType.scalar ScalarType.string)
      "a string").2 ["level1", "level21"]
      (fun ⟨r, hr⟩ => by simp at hr)
      (fun ⟨r, hr⟩ => by simp at hr)).1 (ValueType.scalar ScalarType.int)

/-- C15, at a concrete input: the keys of the container built from
`{"a" : 1, "b" : 2}`. -/
theorem keys_spec_witness : abDocument.keys = ["a", "b"] :=
  (keys_spec abDocument).1 [("a", JsonValue.int 1), ("b", JsonValue.int 2)] rfl


end PCPClient
